import Mathlib

/-!
Verification development for the qsfs-fuse data cache
(`src/src/data/Cache.cpp`, class `QS::Data::Cache`).

The cache state is embedded shallowly:

* `m_cache` (a `std::list` of `(fileId, shared_ptr<File>)` pairs, front =
  most recently used) becomes `Sys.order : List Entry`.  C++ list nodes
  have stable identity (iterators survive `splice`), which we model by
  giving every node a numeric identity `Entry.nid`; fresh identities come
  from `Sys.nextId`.
* `m_map` (a `std::map` from fileId to list iterator) becomes
  `Sys.index : List (String × Nat)`, mapping a key to the `nid` of a node.
* `m_size` (a `size_t` byte counter) becomes `Sys.msize : Nat`; every
  update made by the C++ code goes through `add64` / `sub64`, which are
  64-bit wrap-around addition and subtraction, so `size_t` overflow
  semantics are preserved exactly.
* The environment the cache consults (scratch-directory creation, the
  `statvfs` free-space probe, disk page allocation inside `File::Write`)
  is part of the state: `mkdirOk`, `diskFree`, `allocOk`.
* The directory tree collaborator is reduced to the part the cache
  touches: a map from fileId to the node metadata fields it updates
  (file size and open flag), `Sys.tree`; `none` models a null
  `shared_ptr<DirectoryTree>`.

`File` itself (`src/src/data/File.cpp`) is not part of the source
snapshot, so it is modelled from the specification, at byte granularity;
see the doc comments below.
-/

namespace Qsfs

/-- 2 to the power 64, the modulus of `size_t` arithmetic. -/
def wordMod : Nat := 2 ^ 64

/-- Wrap-around `size_t` addition, used for every `m_size +=` in the code. -/
def add64 (a b : Nat) : Nat := (a + b) % wordMod

/-- Wrap-around `size_t` subtraction, used for every `m_size -=` in the
code (and for the `GetSize() - GetCachedSize()` logging computation). -/
def sub64 (a b : Nat) : Nat := (a + (wordMod - b % wordMod)) % wordMod

/-- Modelled from the spec: the safe-disk-space reserve.  Section 6 of the
spec: the `statvfs` check requires free bytes to be at least the requested
size plus a 16 MiB reserve (`QS::UtilsWithLog::IsSafeDiskSpace` lives in
`base/Utils.cpp`, which is not in the source snapshot). -/
def diskReserve : Nat := 16 * 1024 * 1024

/-- Modelled from the spec: one cached byte of a `File`.  The spec (section
3) stores data in pages, each page either `InMemory` or `OnDisk`; since
page boundaries are never observed by the cache-level claims, the page set
is modelled at byte granularity: a cell is one byte at `idx` whose backing
is in memory iff `inMem`. -/
structure Cell where
  idx : Nat
  val : Nat
  inMem : Bool
deriving DecidableEq

/-- Modelled from the spec: `QS::Data::File` (its source file is not in
the snapshot; only `Cache.cpp` is).  `cells` is the byte-granularity page
set; `fsize` is the stored logical size (`GetSize`), `useDiskFile` makes
newly allocated bytes disk-backed, `isOpen` is the open state. -/
structure File where
  fid : String
  cells : List Cell
  fsize : Nat
  useDiskFile : Bool
  isOpen : Bool
deriving DecidableEq

/-- Modelled from the spec: a fresh empty `File`, as built by the `File`
constructor used in `Cache::UnguardedNewEmptyFile`. -/
def emptyFile (fid : String) : File :=
  { fid := fid, cells := [], fsize := 0, useDiskFile := false, isOpen := false }

/-- Modelled from the spec: `File::GetCachedSize`, the number of bytes
whose backing is in memory. -/
def cachedSize (f : File) : Nat := (f.cells.filter (fun c => c.inMem)).length

/-- Modelled from the spec: the number of bytes of `f` backed by the disk
scratch area. -/
def diskBytes (f : File) : Nat := (f.cells.filter (fun c => !c.inMem)).length

/-- Modelled from the spec: write one byte at index `i`: overwrite the
existing cell in place (keeping its memory/disk placement, per spec 4.2
step 2) or append a new cell whose placement is `mem` (spec 4.2 step 3).
Returns the new cell list and whether a cell was created. -/
def setCell : List Cell → Nat → Nat → Bool → List Cell × Bool
  | [], i, v, mem => ([⟨i, v, mem⟩], true)
  | c :: rest, i, v, mem =>
    if c.idx = i then ({ c with val := v } :: rest, false)
    else
      let r := setCell rest i v mem
      (c :: r.1, r.2)

/-- Modelled from the spec: write the byte list `data` starting at `off`;
new cells get placement `mem`.  Returns the new cell list and the number
of newly created cells. -/
def writeCells : List Cell → Nat → List Nat → Bool → List Cell × Nat
  | cells, _, [], _ => (cells, 0)
  | cells, off, v :: vs, mem =>
    let r1 := setCell cells off v mem
    let r2 := writeCells r1.1 (off + 1) vs mem
    (r2.1, if r1.2 then r2.2 + 1 else r2.2)

/-- Modelled from the spec: `File::Write(offset, len, buffer, open)`
(spec 4.2).  Overwrites overlapping bytes in place, allocates new bytes
with placement decided by `useDiskFile`, updates the logical size and the
open state, and returns `(ok, newFile, addedMemoryBytes, addedDiskBytes)`.
Failure semantics (spec 4.2): a disk page allocation can fail (modelled by
`allocOk = false`); the File then rolls back and reports `ok = false` with
no change. -/
def fileWrite (f : File) (off : Nat) (data : List Nat) (opn : Bool)
    (allocOk : Bool) : Bool × File × Nat × Nat :=
  let r := writeCells f.cells off data (!f.useDiskFile)
  if f.useDiskFile = true ∧ allocOk = false ∧ r.2 ≠ 0 then
    (false, f, 0, 0)
  else
    (true,
     { f with cells := r.1, fsize := max f.fsize (off + data.length),
              isOpen := opn },
     if f.useDiskFile then 0 else r.2,
     if f.useDiskFile then r.2 else 0)

/-- Modelled from the spec: `File::ResizeToSmallerSize` (spec 4.2):
bytes at or past `newSize` are dropped, the logical size becomes
`newSize`. -/
def resizeToSmaller (f : File) (newSize : Nat) : File :=
  { f with cells := f.cells.filter (fun c => decide (c.idx < newSize)),
           fsize := newSize }

/-- Node metadata fields that `Cache` updates through the directory tree
collaborator: the recorded file size and the open flag. -/
structure NodeMeta where
  nsize : Nat
  nopen : Bool
deriving DecidableEq

/-- One node of `m_cache`: the key, the `shared_ptr<File>` (which the C++
type allows to be null, hence `Option`), and the stable node identity
standing for the C++ list iterator. -/
structure Entry where
  key : String
  file : Option File
  nid : Nat
deriving DecidableEq

/-- The whole state: the `Cache` object fields plus the environment it
consults. -/
structure Sys where
  capacity : Nat
  msize : Nat
  order : List Entry
  index : List (String × Nat)
  nextId : Nat
  diskFree : Nat
  mkdirOk : Bool
  allocOk : Bool
  tree : Option (List (String × NodeMeta))
deriving DecidableEq

/-- Lookup in `m_map`: the node identity registered for a key. -/
def lookupIdx (s : Sys) (fid : String) : Option Nat :=
  (s.index.find? (fun p => p.1 == fid)).map (fun p => p.2)

/-- Whether `m_map` holds the key (`m_map.find(fid) != m_map.end()`). -/
def hasKey (idx : List (String × Nat)) (k : String) : Bool :=
  (idx.find? (fun p => p.1 == k)).isSome

/-- Erase a key from `m_map`.  `std::map` keys are unique, so under the
well-formedness invariant this removes exactly the one entry. -/
def eraseKey (idx : List (String × Nat)) (k : String) : List (String × Nat) :=
  idx.filter (fun p => !(p.1 == k))

/-- Find the list node with identity `i` (dereferencing a stored
iterator). -/
def findNid (l : List Entry) (i : Nat) : Option Entry :=
  l.find? (fun e => e.nid == i)

/-- Remove the list node with identity `i`, returning it and the remaining
list in order. -/
def extractNid : List Entry → Nat → Option (Entry × List Entry)
  | [], _ => none
  | e :: rest, i =>
    if e.nid = i then some (e, rest)
    else
      match extractNid rest i with
      | some (e', rest') => some (e', e :: rest')
      | none => none

/-- `Cache::UnguardedMakeFileMostRecentlyUsed`: `m_cache.splice` moves the
node to the front; iterators (node identities) stay valid and `m_map` is
not updated. -/
def touch (s : Sys) (i : Nat) : Sys :=
  match extractNid s.order i with
  | some (e, rest) => { s with order := e :: rest }
  | none => s

/-- Replace the `File` held by node `i` (mutation through the shared
pointer).  A null pointer stays null (the C++ code would dereference it). -/
def modifyEntryFile (s : Sys) (i : Nat) (g : File → File) : Sys :=
  { s with order :=
      s.order.map (fun e => if e.nid == i then { e with file := e.file.map g } else e) }

/-- Set the key stored in node `i` (`it->second->first = newFileId` in
`Cache::Rename`). -/
def modifyEntryKey (s : Sys) (i : Nat) (k : String) : Sys :=
  { s with order :=
      s.order.map (fun e => if e.nid == i then { e with key := k } else e) }

/-- The `File` of the node with identity `i` (null pointer gives `none`). -/
def fileAtNid (s : Sys) (i : Nat) : Option File :=
  (findNid s.order i).bind (fun e => e.file)

/-- The `File` currently indexed under `fid`. -/
def fileAt (s : Sys) (fid : String) : Option File :=
  match lookupIdx s fid with
  | some i => fileAtNid s i
  | none => none

/-- Sum of `GetCachedSize` over all Files held in the cache (the quantity
the spec says `m_size` tracks). -/
def sumCachedSizes (s : Sys) : Nat :=
  (s.order.map (fun e => match e.file with
    | some f => cachedSize f
    | none => 0)).sum

/-- `Cache::HasFreeSpace(size)`: `GetSize() + size <= GetCapacity()` in
`size_t` arithmetic. -/
def hasFreeSpaceP (msize sz cap : Nat) : Prop := add64 msize sz ≤ cap

instance (msize sz cap : Nat) : Decidable (hasFreeSpaceP msize sz cap) :=
  inferInstanceAs (Decidable (_ ≤ _))

/-- Modelled from the spec: `IsSafeDiskSpace(folder, size)` succeeds when
the scratch filesystem has at least `size + 16 MiB` free bytes. -/
def diskSafeP (dfree sz : Nat) : Prop := sz + diskReserve ≤ dfree

instance (dfree sz : Nat) : Decidable (diskSafeP dfree sz) :=
  inferInstanceAs (Decidable (_ ≤ _))

/-- `Cache::HasFile`. -/
def hasFile (s : Sys) (fid : String) : Bool := (lookupIdx s fid).isSome

/-- `Cache::GetFileSize`: look the key up in `m_map`; absent keys give 0.
For a present key the code dereferences the stored `shared_ptr<File>`
without a null check; the (unreachable under the invariant) null case is
modelled as 0. -/
def getFileSize (s : Sys) (fid : String) : Nat :=
  match lookupIdx s fid with
  | some i =>
    match fileAtNid s i with
    | some f => f.fsize
    | none => 0
  | none => 0

/-- `Cache::UnguardedNewEmptyFile`: push a fresh `(fileId, new File)` node
to the front, then `m_map.emplace(fileId, begin())`.  The front-of-list
check always passes after `push_front`; the `emplace` fails exactly when
the key is already in the map, in which case the end iterator (`none`) is
returned while the pushed node stays in the list. -/
def unguardedNewEmptyFile (s : Sys) (fid : String) : Sys × Option Nat :=
  let e : Entry := ⟨fid, some (emptyFile fid), s.nextId⟩
  let s1 := { s with order := e :: s.order, nextId := s.nextId + 1 }
  if hasKey s.index fid then (s1, none)
  else ({ s1 with index := (fid, s.nextId) :: s.index }, some s.nextId)

/-- `Cache::MakeFile`: unconditionally invoke `UnguardedNewEmptyFile` and
return the File at the returned position, or a null pointer for the end
iterator. -/
def makeFile (s : Sys) (fid : String) : Sys × Option File :=
  let r := unguardedNewEmptyFile s fid
  match r.2 with
  | some i => (r.1, fileAtNid r.1 i)
  | none => (r.1, none)

/-- `Cache::UnguardedErase` at the node registered under key `k` with
identity `i`: subtract the cached size, clear the File (which releases its
scratch bytes back to the disk), unlink the node, erase the map entry. -/
def unguardedEraseNid (s : Sys) (k : String) (i : Nat) : Sys :=
  match extractNid s.order i with
  | some (e, rest) =>
    { s with
      order := rest,
      msize := match e.file with
        | some f => sub64 s.msize (cachedSize f)
        | none => s.msize,
      diskFree := match e.file with
        | some f => s.diskFree + diskBytes f
        | none => s.diskFree,
      index := eraseKey s.index k }
  | none => { s with index := eraseKey s.index k }

/-- `Cache::Erase`. -/
def eraseOp (s : Sys) (fid : String) : Sys :=
  match lookupIdx s fid with
  | some i => unguardedEraseNid s fid i
  | none => s

/-- Intermediate state threaded through the eviction scans: the byte
counter, the scratch free bytes, and `m_map`. -/
structure ScanSt where
  msize : Nat
  dfree : Nat
  idx : List (String × Nat)
deriving DecidableEq

/-- The shared reverse-iterator eviction loop of `Cache::Free` and
`Cache::FreeDiskCacheFiles`, acting on the reversed order list (least
recently used first).  At each node: stop if `stop` already holds;
otherwise evict the File when its key differs from the unfreeable one and
it is not open (subtract its cached size, release its scratch bytes,
unlink, erase from the map); remove null-File nodes unconditionally; keep
anything else and move towards the front. -/
def evictScan (stop : ScanSt → Bool) (u : String) :
    List Entry → ScanSt → List Entry × ScanSt
  | [], st => ([], st)
  | e :: rest, st =>
    if stop st then (e :: rest, st)
    else
      match e.file with
      | some f =>
        if e.key ≠ u ∧ f.isOpen = false then
          evictScan stop u rest
            ⟨sub64 st.msize (cachedSize f), st.dfree + diskBytes f,
             eraseKey st.idx e.key⟩
        else
          let r := evictScan stop u rest st
          (e :: r.1, r.2)
      | none =>
        evictScan stop u rest { st with idx := eraseKey st.idx e.key }

/-- The stop condition of the `Cache::Free` loop: free memory space
reached. -/
def memStop (sz cap : Nat) : ScanSt → Bool :=
  fun st => decide (hasFreeSpaceP st.msize sz cap)

/-- The stop condition of the `Cache::FreeDiskCacheFiles` loop: safe disk
space reached. -/
def diskStop (sz : Nat) : ScanSt → Bool :=
  fun st => decide (diskSafeP st.dfree sz)

/-- The eviction loop of `Cache::Free` run over the current state. -/
def freeScanR (s : Sys) (sz : Nat) (u : String) : List Entry × ScanSt :=
  evictScan (memStop sz s.capacity) u s.order.reverse ⟨s.msize, s.diskFree, s.index⟩

/-- The eviction loop of `Cache::FreeDiskCacheFiles` run over the current
state. -/
def diskScanR (s : Sys) (sz : Nat) (u : String) : List Entry × ScanSt :=
  evictScan (diskStop sz) u s.order.reverse ⟨s.msize, s.diskFree, s.index⟩

/-- `Cache::Free(size, fileUnfreeable)`. -/
def free (s : Sys) (sz : Nat) (u : String) : Sys × Bool :=
  if sz > s.capacity then (s, false)
  else if hasFreeSpaceP s.msize sz s.capacity then (s, true)
  else
    let r := freeScanR s sz u
    ({ s with order := r.1.reverse, msize := r.2.msize,
              diskFree := r.2.dfree, index := r.2.idx },
     decide (hasFreeSpaceP r.2.msize sz s.capacity))

/-- `Cache::FreeDiskCacheFiles(diskfolder, size, fileUnfreeable)` (the
folder argument is asserted equal to the configured scratch directory and
is part of the environment here). -/
def freeDiskCacheFiles (s : Sys) (sz : Nat) (u : String) : Sys × Bool :=
  if diskSafeP s.diskFree sz then (s, true)
  else
    let r := diskScanR s sz u
    ({ s with order := r.1.reverse, msize := r.2.msize,
              diskFree := r.2.dfree, index := r.2.idx },
     decide (diskSafeP r.2.dfree sz))

/-- The tail of `Cache::PrepareWrite`: make the target File most recently
used (creating it when absent) and set its `useDiskFile` flag to the
negation of `availableFreeSpace`. -/
def finishPrepare (s : Sys) (fid : String) (avail : Bool) : Sys × Option Nat :=
  let r : Sys × Option Nat :=
    match lookupIdx s fid with
    | some i => (touch s i, some i)
    | none => unguardedNewEmptyFile s fid
  match r.2 with
  | some i => (modifyEntryFile r.1 i (fun f => { f with useDiskFile := !avail }), some i)
  | none => (r.1, none)

/-- `Cache::PrepareWrite(fileId, len)`: when there is no free memory, try
`Free`; when that fails, fall back to the scratch directory (create it,
check safe disk space, free disk cache files when needed).  On success the
target File is prepared and its position returned; `none` models the
`(false, null)` failure return. -/
def prepareWrite (s : Sys) (fid : String) (len : Nat) : Sys × Option Nat :=
  if hasFreeSpaceP s.msize len s.capacity then
    finishPrepare s fid true
  else
    let r := free s len fid
    if r.2 then finishPrepare r.1 fid true
    else if r.1.mkdirOk = false then (r.1, none)
    else if diskSafeP r.1.diskFree len then finishPrepare r.1 fid false
    else
      let rd := freeDiskCacheFiles r.1 len fid
      if rd.2 then finishPrepare rd.1 fid false
      else (rd.1, none)

/-- The metadata update at the end of `Cache::Write`: raise the node file
size to `off + len` when that exceeds it, and record the open flag. -/
def treeUpd (s : Sys) (fid : String) (off len : Nat) (opn : Bool) : Sys :=
  match s.tree with
  | none => s
  | some t =>
    { s with tree := some (t.map (fun p =>
        if p.1 == fid then
          (p.1, ⟨if off + len > p.2.nsize then off + len else p.2.nsize, opn⟩)
        else p)) }

/-- The `len == 0` fast path shared by both `Cache::Write` overloads:
touch the LRU position when present, create an empty File when absent. -/
def touchOrCreate (s : Sys) (fid : String) : Sys :=
  match lookupIdx s fid with
  | some i => touch s i
  | none => (unguardedNewEmptyFile s fid).1

/-- The common body of both `Cache::Write` overloads after input
validation: prepare, delegate to `File::Write`, add the reported in-memory
delta to `m_size` on success, then update the directory tree node. -/
def writeCore (s : Sys) (fid : String) (off : Nat) (data : List Nat)
    (opn : Bool) : Sys × Bool :=
  let p := prepareWrite s fid data.length
  match p.2 with
  | none => (p.1, false)
  | some i =>
    match fileAtNid p.1 i with
    | none => (p.1, false)
    | some f =>
      let w := fileWrite f off data opn p.1.allocOk
      let s2 := modifyEntryFile p.1 i (fun _ => w.2.1)
      if w.1 then
        let s3 := { s2 with msize := add64 s2.msize w.2.2.1 }
        (treeUpd s3 fid off data.length opn, true)
      else (s2, false)

/-- `Cache::Write(fileId, offset, len, buffer, dirTree, open)` (buffer
overload).  `data` is the `len` bytes of the buffer.  A zero length
returns success after touching or creating the entry; an empty fileId is
rejected (the null-buffer and negative-offset checks have no counterpart
in the model, where `data` is a value and `off : Nat`). -/
def cacheWrite (s : Sys) (fid : String) (off : Nat) (data : List Nat)
    (opn : Bool) : Sys × Bool :=
  if data.length = 0 then (touchOrCreate s fid, true)
  else if fid = "" then (s, false)
  else writeCore s fid off data opn

/-- `Cache::Write(fileId, offset, len, stream, dirTree, open)` (stream
overload): additionally rejects a `len` exceeding the stream size, then
writes the first `len` bytes of the stream. -/
def cacheWriteStream (s : Sys) (fid : String) (off len : Nat)
    (stream : List Nat) (opn : Bool) : Sys × Bool :=
  if len = 0 then (touchOrCreate s fid, true)
  else if fid = "" then (s, false)
  else if ¬ len ≤ stream.length then (s, false)
  else writeCore s fid off (stream.take len) opn

/-- The body of `Cache::Resize` once the target position `i` is known
(found in the map, or freshly created for an uncached file): grow by
writing a zero-filled hole through `Write`, shrink through
`File::ResizeToSmallerSize`; afterwards `m_size` is additionally adjusted
by the change of the cached size (a `size_t` difference), and the node
size is recorded when the file reached the requested size. -/
def resizeTail (s0 : Sys) (fid : String) (newSize : Nat) (i : Nat) : Sys :=
  match fileAtNid s0 i with
  | none => s0
  | some f =>
    let oldSize := f.fsize
    let oldC := cachedSize f
    if newSize = oldSize then s0
    else
      let s1 :=
        if oldSize < newSize then
          (cacheWrite s0 fid oldSize (List.replicate (newSize - oldSize) 0) f.isOpen).1
        else
          modifyEntryFile s0 i (fun g => resizeToSmaller g newSize)
      let newC := match fileAtNid s1 i with
        | some f1 => cachedSize f1
        | none => 0
      let s2 := { s1 with msize := add64 s1.msize (sub64 newC oldC) }
      let curSize := match fileAtNid s2 i with
        | some f1 => f1.fsize
        | none => 0
      if curSize = newSize then
        match s2.tree with
        | none => s2
        | some t =>
          { s2 with tree := some (t.map (fun p =>
              if p.1 == fid then (p.1, { p.2 with nsize := newSize }) else p)) }
      else s2

/-- `Cache::Resize(fileId, newFileSize, dirTree)`: look the file up
(creating an empty one for an uncached fid, whose content may simply be
empty) and run the resize body at its position. -/
def resize (s : Sys) (fid : String) (newSize : Nat) : Sys :=
  match lookupIdx s fid with
  | some i => resizeTail s fid newSize i
  | none =>
    match unguardedNewEmptyFile s fid with
    | (s0, some i) => resizeTail s0 fid newSize i
    | (s0, none) => s0

/-- The part of `Cache::Rename` after the erase of an existing entry
under the new id: re-key the old node in place, move it to the front,
rename the File, `emplace` the map entry for the new id (failing silently
on a duplicate) and erase the old map entry. -/
def renameTail (s1 : Sys) (oldId newId : String) : Sys :=
  match lookupIdx s1 oldId with
  | none => s1
  | some i =>
    let s2 := modifyEntryKey s1 i newId
    let s3 := touch s2 i
    let s4 := modifyEntryFile s3 i (fun f => { f with fid := newId })
    let s5 :=
      if hasKey s4.index newId then s4
      else { s4 with index := (newId, i) :: s4.index }
    { s5 with index := eraseKey s5.index oldId }

/-- `Cache::Rename(oldFileId, newFileId)`: equal ids do nothing; an
existing entry under the new id is erased first; then the old node is
re-keyed, touched, renamed and re-indexed. -/
def rename (s : Sys) (oldId newId : String) : Sys :=
  if oldId = newId then s
  else
    renameTail
      (match lookupIdx s newId with
       | some j => unguardedEraseNid s newId j
       | none => s) oldId newId

/-- `Cache::SetFileOpen(fileId, open, dirTree)`. -/
def setFileOpen (s : Sys) (fid : String) (opn : Bool) : Sys :=
  let s1 :=
    match lookupIdx s fid with
    | some i => modifyEntryFile s i (fun f => { f with isOpen := opn })
    | none => s
  match s1.tree with
  | none => s1
  | some t =>
    { s1 with tree := some (t.map (fun p =>
        if p.1 == fid then (p.1, { p.2 with nopen := opn }) else p)) }

/-- `Cache::FindFile(filePath)`: touch the LRU position on a hit and
return the File there; a miss returns a null pointer. -/
def findFile (s : Sys) (fid : String) : Sys × Option File :=
  match lookupIdx s fid with
  | some i =>
    let s' := touch s i
    (s', fileAtNid s' i)
  | none => (s, none)

/-- Agreement between the order list and the index map: map keys are
unique, node identities are unique, every map entry points at a node
that carries the same key back, and every node is indexed under its key
and identity. -/
def WFc (l : List Entry) (idx : List (String × Nat)) : Prop :=
  (idx.map Prod.fst).Nodup ∧ (l.map Entry.nid).Nodup ∧
  (∀ p ∈ idx, ∃ e ∈ l, e.nid = p.2 ∧ e.key = p.1) ∧
  (∀ e ∈ l, (e.key, e.nid) ∈ idx)

/-- The cache-state invariant: list and map agree, and all node
identities are below the freshness counter. -/
def WF (s : Sys) : Prop :=
  WFc s.order s.index ∧ ∀ e ∈ s.order, e.nid < s.nextId

/-- No node holds a null `shared_ptr<File>` (the state the code in fact
maintains; the null branches in the eviction loops are defensive). -/
def NoNull (s : Sys) : Prop := ∀ e ∈ s.order, e.file ≠ none

instance (l : List Entry) (idx : List (String × Nat)) : Decidable (WFc l idx) := by
  unfold WFc; infer_instance

instance (s : Sys) : Decidable (WF s) := by
  unfold WF; infer_instance

instance (s : Sys) : Decidable (NoNull s) := by
  unfold NoNull; infer_instance

section Lemmas

theorem mem_eraseKey {idx : List (String × Nat)} {k : String} {p : String × Nat} :
    p ∈ eraseKey idx k ↔ p ∈ idx ∧ ¬ p.1 = k := by
  simp [eraseKey, List.mem_filter]

theorem eraseKey_sublist (idx : List (String × Nat)) (k : String) :
    List.Sublist (eraseKey idx k) idx :=
  List.filter_sublist idx

theorem nodupKeys_inj {idx : List (String × Nat)}
    (h : (idx.map Prod.fst).Nodup) {p q : String × Nat}
    (hp : p ∈ idx) (hq : q ∈ idx) (hk : p.1 = q.1) : p = q := by
  induction idx with
  | nil => cases hp
  | cons a t ih =>
    rw [List.map_cons, List.nodup_cons] at h
    rcases List.mem_cons.mp hp with hpa | hp' <;>
      rcases List.mem_cons.mp hq with hqa | hq'
    · rw [hpa, hqa]
    · subst hpa
      have hmem : q.1 ∈ t.map Prod.fst := List.mem_map_of_mem Prod.fst hq'
      rw [← hk] at hmem
      exact absurd hmem h.1
    · subst hqa
      have hmem : p.1 ∈ t.map Prod.fst := List.mem_map_of_mem Prod.fst hp'
      rw [hk] at hmem
      exact absurd hmem h.1
    · exact ih h.2 hp' hq'

theorem extractNid_spec {l : List Entry} {i : Nat} {e : Entry} {r : List Entry}
    (h : extractNid l i = some (e, r)) :
    e.nid = i ∧ List.Perm l (e :: r) := by
  induction l generalizing r with
  | nil => simp [extractNid] at h
  | cons a t ih =>
    by_cases ha : a.nid = i
    · simp only [extractNid, if_pos ha, Option.some.injEq, Prod.mk.injEq] at h
      obtain ⟨rfl, rfl⟩ := h
      exact ⟨ha, List.Perm.refl _⟩
    · simp only [extractNid, if_neg ha] at h
      cases hrec : extractNid t i with
      | none => rw [hrec] at h; cases h
      | some pr =>
        obtain ⟨e', r'⟩ := pr
        rw [hrec, Option.some.injEq, Prod.mk.injEq] at h
        obtain ⟨rfl, rfl⟩ := h
        obtain ⟨hnid, hperm⟩ := ih hrec
        exact ⟨hnid, (hperm.cons a).trans (List.Perm.swap e' a r')⟩

theorem extractNid_none {l : List Entry} {i : Nat}
    (h : extractNid l i = none) : ∀ e ∈ l, ¬ e.nid = i := by
  induction l with
  | nil => intro e he; cases he
  | cons a t ih =>
    intro e he
    by_cases ha : a.nid = i
    · simp [extractNid, if_pos ha] at h
    · simp only [extractNid, if_neg ha] at h
      rcases List.mem_cons.mp he with rfl | he'
      · exact ha
      · cases hrec : extractNid t i with
        | none => exact ih hrec e he'
        | some pr => obtain ⟨e', r'⟩ := pr; rw [hrec] at h; cases h

theorem findNid_of_extract {l : List Entry} {i : Nat} {e : Entry} {r : List Entry}
    (h : extractNid l i = some (e, r)) : findNid l i = some e := by
  induction l generalizing r with
  | nil => simp [extractNid] at h
  | cons a t ih =>
    by_cases ha : a.nid = i
    · simp only [extractNid, if_pos ha, Option.some.injEq, Prod.mk.injEq] at h
      obtain ⟨rfl, rfl⟩ := h
      simp [findNid, List.find?_cons, ha]
    · simp only [extractNid, if_neg ha] at h
      cases hrec : extractNid t i with
      | none => rw [hrec] at h; cases h
      | some pr =>
        obtain ⟨e', r'⟩ := pr
        rw [hrec, Option.some.injEq, Prod.mk.injEq] at h
        obtain ⟨rfl, rfl⟩ := h
        have hrest := ih hrec
        simp only [findNid, List.find?_cons] at hrest ⊢
        have : (a.nid == i) = false := by simp [ha]
        rw [this]
        exact hrest

theorem findNid_mem {l : List Entry} {i : Nat} {e : Entry}
    (h : findNid l i = some e) : e ∈ l ∧ e.nid = i := by
  refine ⟨List.mem_of_find?_eq_some h, ?_⟩
  have := List.find?_some h
  simpa [beq_iff_eq] using this

theorem nodupMap_inj {α β : Type} {f : α → β} {l : List α}
    (h : (l.map f).Nodup) {x y : α} (hx : x ∈ l) (hy : y ∈ l)
    (hf : f x = f y) : x = y := by
  induction l with
  | nil => cases hx
  | cons a t ih =>
    rw [List.map_cons, List.nodup_cons] at h
    rcases List.mem_cons.mp hx with hxa | hx' <;>
      rcases List.mem_cons.mp hy with hya | hy'
    · rw [hxa, hya]
    · subst hxa
      have hmem : f y ∈ t.map f := List.mem_map_of_mem f hy'
      rw [← hf] at hmem
      exact absurd hmem h.1
    · subst hya
      have hmem : f x ∈ t.map f := List.mem_map_of_mem f hx'
      rw [hf] at hmem
      exact absurd hmem h.1
    · exact ih h.2 hx' hy'

theorem WFc_perm {l l' : List Entry} {idx : List (String × Nat)}
    (hp : List.Perm l l') (h : WFc l idx) : WFc l' idx := by
  obtain ⟨h1, h2, h3, h4⟩ := h
  refine ⟨h1, ((hp.map Entry.nid).nodup_iff).mp h2, ?_, ?_⟩
  · intro p hpp
    obtain ⟨e, he, hx⟩ := h3 p hpp
    exact ⟨e, hp.mem_iff.mp he, hx⟩
  · intro e he
    exact h4 e (hp.mem_iff.mpr he)

theorem WFc_key_inj {l : List Entry} {idx : List (String × Nat)}
    (h : WFc l idx) {e1 e2 : Entry} (h1 : e1 ∈ l) (h2 : e2 ∈ l)
    (hk : e1.key = e2.key) : e1 = e2 := by
  obtain ⟨hka, hna, _, h4⟩ := h
  have p1 := h4 e1 h1
  have p2 := h4 e2 h2
  have hpq : (e1.key, e1.nid) = (e2.key, e2.nid) := nodupKeys_inj hka p1 p2 hk
  have hn : e1.nid = e2.nid := congrArg Prod.snd hpq
  exact nodupMap_inj hna h1 h2 hn

theorem WFc_erase_head {e : Entry} {l : List Entry} {idx : List (String × Nat)}
    (h : WFc (e :: l) idx) : WFc l (eraseKey idx e.key) := by
  obtain ⟨h1, h2, h3, h4⟩ := h
  rw [List.map_cons, List.nodup_cons] at h2
  refine ⟨((eraseKey_sublist idx e.key).map Prod.fst).nodup h1, h2.2, ?_, ?_⟩
  · intro p hp
    obtain ⟨hpi, hpk⟩ := mem_eraseKey.mp hp
    obtain ⟨e', he', hn, hk⟩ := h3 p hpi
    rcases List.mem_cons.mp he' with rfl | he''
    · exact absurd hk.symm hpk
    · exact ⟨e', he'', hn, hk⟩
  · intro e' he'
    have hin := h4 e' (List.mem_cons_of_mem e he')
    refine mem_eraseKey.mpr ⟨hin, ?_⟩
    intro hkeq
    have : e' = e := WFc_key_inj ⟨h1, by rw [List.map_cons, List.nodup_cons]; exact h2, h3, h4⟩
      (List.mem_cons_of_mem e he') (List.mem_cons_self e l) hkeq
    subst this
    exact h2.1 (List.mem_map_of_mem Entry.nid he')

theorem WFc_cons_new {l : List Entry} {idx : List (String × Nat)}
    {k : String} {fo : Option File} {n : Nat}
    (h : WFc l idx) (hk : k ∉ idx.map Prod.fst) (hn : ∀ e ∈ l, e.nid ≠ n) :
    WFc ((⟨k, fo, n⟩ : Entry) :: l) ((k, n) :: idx) := by
  obtain ⟨h1, h2, h3, h4⟩ := h
  refine ⟨?_, ?_, ?_, ?_⟩
  · rw [List.map_cons, List.nodup_cons]
    exact ⟨hk, h1⟩
  · rw [List.map_cons, List.nodup_cons]
    refine ⟨?_, h2⟩
    intro hmem
    obtain ⟨e, he, hne⟩ := List.mem_map.mp hmem
    exact hn e he hne
  · intro p hp
    rcases List.mem_cons.mp hp with rfl | hp'
    · exact ⟨⟨k, fo, n⟩, List.mem_cons_self _ _, rfl, rfl⟩
    · obtain ⟨e, he, hx⟩ := h3 p hp'
      exact ⟨e, List.mem_cons_of_mem _ he, hx⟩
  · intro e he
    rcases List.mem_cons.mp he with rfl | he'
    · exact List.mem_cons_self _ _
    · exact List.mem_cons_of_mem _ (h4 e he')

theorem WFc_map_entry {l : List Entry} {idx : List (String × Nat)}
    (h : WFc l idx) (g : Entry → Entry)
    (hk : ∀ e, (g e).key = e.key) (hn : ∀ e, (g e).nid = e.nid) :
    WFc (l.map g) idx := by
  obtain ⟨h1, h2, h3, h4⟩ := h
  have hmap : (l.map g).map Entry.nid = l.map Entry.nid := by
    rw [List.map_map]
    exact List.map_congr_left (fun e _ => hn e)
  refine ⟨h1, by rw [hmap]; exact h2, ?_, ?_⟩
  · intro p hp
    obtain ⟨e, he, hnid, hkey⟩ := h3 p hp
    exact ⟨g e, List.mem_map_of_mem g he, by rw [hn e]; exact hnid,
           by rw [hk e]; exact hkey⟩
  · intro e' he'
    obtain ⟨e, he, rfl⟩ := List.mem_map.mp he'
    rw [hk e, hn e]
    exact h4 e he

theorem evictScan_nil (stop : ScanSt → Bool) (u : String) (st : ScanSt) :
    evictScan stop u [] st = ([], st) := rfl

theorem evictScan_cons_stop {stop : ScanSt → Bool} {u : String} {st : ScanSt}
    {e : Entry} {rest : List Entry} (h : stop st = true) :
    evictScan stop u (e :: rest) st = (e :: rest, st) := by
  simp [evictScan, h]

theorem evictScan_cons_null {stop : ScanSt → Bool} {u : String} {st : ScanSt}
    {e : Entry} {rest : List Entry} (h : stop st = false) (hf : e.file = none) :
    evictScan stop u (e :: rest) st =
      evictScan stop u rest { st with idx := eraseKey st.idx e.key } := by
  simp [evictScan, h, hf]

theorem evictScan_cons_evict {stop : ScanSt → Bool} {u : String} {st : ScanSt}
    {e : Entry} {rest : List Entry} {f : File} (h : stop st = false)
    (hf : e.file = some f) (hc : e.key ≠ u ∧ f.isOpen = false) :
    evictScan stop u (e :: rest) st =
      evictScan stop u rest
        ⟨sub64 st.msize (cachedSize f), st.dfree + diskBytes f,
         eraseKey st.idx e.key⟩ := by
  simp [evictScan, h, hf, hc]

theorem evictScan_cons_skip {stop : ScanSt → Bool} {u : String} {st : ScanSt}
    {e : Entry} {rest : List Entry} {f : File} (h : stop st = false)
    (hf : e.file = some f) (hc : ¬ (e.key ≠ u ∧ f.isOpen = false)) :
    evictScan stop u (e :: rest) st =
      (e :: (evictScan stop u rest st).1, (evictScan stop u rest st).2) := by
  simp [evictScan, h, hf, hc]

theorem evictScan_sublist (stop : ScanSt → Bool) (u : String) :
    ∀ (l : List Entry) (st : ScanSt),
      List.Sublist (evictScan stop u l st).1 l := by
  intro l
  induction l with
  | nil => intro st; rw [evictScan_nil]
  | cons e rest ih =>
    intro st
    by_cases hstop : stop st = true
    · rw [evictScan_cons_stop hstop]
    · rw [Bool.not_eq_true] at hstop
      cases hf : e.file with
      | none =>
        rw [evictScan_cons_null hstop hf]
        exact (ih _).cons e
      | some f =>
        by_cases hc : e.key ≠ u ∧ f.isOpen = false
        · rw [evictScan_cons_evict hstop hf hc]
          exact (ih _).cons e
        · rw [evictScan_cons_skip hstop hf hc]
          exact (ih _).cons₂ e

theorem evictScan_skip_mem (stop : ScanSt → Bool) (u : String) :
    ∀ (l : List Entry) (st : ScanSt) (e : Entry) (f : File), e ∈ l →
      e.file = some f → (e.key = u ∨ f.isOpen = true) →
      e ∈ (evictScan stop u l st).1 := by
  intro l
  induction l with
  | nil => intro st e f he; cases he
  | cons a rest ih =>
    intro st e f he hf hcond
    by_cases hstop : stop st = true
    · rw [evictScan_cons_stop hstop]; exact he
    · rw [Bool.not_eq_true] at hstop
      cases haf : a.file with
      | none =>
        rw [evictScan_cons_null hstop haf]
        rcases List.mem_cons.mp he with rfl | he'
        · rw [haf] at hf; cases hf
        · exact ih _ e f he' hf hcond
      | some g =>
        by_cases hc : a.key ≠ u ∧ g.isOpen = false
        · rw [evictScan_cons_evict hstop haf hc]
          rcases List.mem_cons.mp he with rfl | he'
          · rw [haf] at hf
            obtain rfl : g = f := by injection hf
            rcases hcond with hku | hop
            · exact absurd hku hc.1
            · rw [hop] at hc; cases hc.2
          · exact ih _ e f he' hf hcond
        · rw [evictScan_cons_skip hstop haf hc]
          rcases List.mem_cons.mp he with rfl | he'
          · exact List.mem_cons_self _ _
          · exact List.mem_cons_of_mem a (ih _ e f he' hf hcond)

theorem evictScan_allskip (stop : ScanSt → Bool) (u : String) :
    ∀ (l : List Entry) (st : ScanSt),
      (∀ e ∈ l, ∃ f, e.file = some f ∧ (e.key = u ∨ f.isOpen = true)) →
      evictScan stop u l st = (l, st) := by
  intro l
  induction l with
  | nil => intro st _; rw [evictScan_nil]
  | cons a rest ih =>
    intro st hall
    by_cases hstop : stop st = true
    · rw [evictScan_cons_stop hstop]
    · rw [Bool.not_eq_true] at hstop
      obtain ⟨f, hf, hcond⟩ := hall a (List.mem_cons_self a rest)
      have hc : ¬ (a.key ≠ u ∧ f.isOpen = false) := by
        rcases hcond with hku | hop
        · intro hx; exact hx.1 hku
        · intro hx; rw [hop] at hx; cases hx.2
      rw [evictScan_cons_skip hstop hf hc,
          ih st (fun e he => hall e (List.mem_cons_of_mem a he))]

theorem evictScan_nonull (stop : ScanSt → Bool) (u : String) :
    ∀ (l : List Entry) (st : ScanSt),
      stop (evictScan stop u l st).2 = false →
      ∀ e ∈ (evictScan stop u l st).1, e.file ≠ none := by
  intro l
  induction l with
  | nil => intro st _ e he; rw [evictScan_nil] at he; cases he
  | cons a rest ih =>
    intro st hfin e he
    by_cases hstop : stop st = true
    · rw [evictScan_cons_stop hstop] at hfin
      rw [hstop] at hfin; cases hfin
    · rw [Bool.not_eq_true] at hstop
      cases haf : a.file with
      | none =>
        rw [evictScan_cons_null hstop haf] at hfin he
        exact ih _ hfin e he
      | some g =>
        by_cases hc : a.key ≠ u ∧ g.isOpen = false
        · rw [evictScan_cons_evict hstop haf hc] at hfin he
          exact ih _ hfin e he
        · rw [evictScan_cons_skip hstop haf hc] at hfin he
          rcases List.mem_cons.mp he with rfl | he'
          · rw [haf]; intro hx; cases hx
          · exact ih _ hfin e he'

theorem evictScan_WFc (stop : ScanSt → Bool) (u : String) :
    ∀ (l o : List Entry) (st : ScanSt),
      WFc (o ++ l) st.idx →
      WFc (o ++ (evictScan stop u l st).1) (evictScan stop u l st).2.idx := by
  intro l
  induction l with
  | nil => intro o st h; rw [evictScan_nil]; exact h
  | cons a rest ih =>
    intro o st h
    by_cases hstop : stop st = true
    · rw [evictScan_cons_stop hstop]; exact h
    · rw [Bool.not_eq_true] at hstop
      have hmid : List.Perm (o ++ a :: rest) (a :: (o ++ rest)) := List.perm_middle
      have hhead : WFc (a :: (o ++ rest)) st.idx := WFc_perm hmid h
      cases haf : a.file with
      | none =>
        rw [evictScan_cons_null hstop haf]
        exact ih o _ (WFc_erase_head hhead)
      | some g =>
        by_cases hc : a.key ≠ u ∧ g.isOpen = false
        · rw [evictScan_cons_evict hstop haf hc]
          exact ih o _ (WFc_erase_head hhead)
        · rw [evictScan_cons_skip hstop haf hc]
          have hres := ih (o ++ [a]) st (by
            rw [List.append_assoc]
            exact WFc_perm (hmid.trans (List.perm_middle.symm)) h)
          have hperm2 : List.Perm ((o ++ [a]) ++ (evictScan stop u rest st).1)
              (o ++ a :: (evictScan stop u rest st).1) := by
            rw [List.append_assoc]
            exact List.Perm.refl _
          exact WFc_perm hperm2 hres

theorem add64_eq {a b : Nat} (h : a + b < wordMod) : add64 a b = a + b :=
  Nat.mod_eq_of_lt h

theorem free_big {s : Sys} {sz : Nat} {u : String} (h1 : sz > s.capacity) :
    free s sz u = (s, false) := by
  simp [free, h1]

theorem free_enough {s : Sys} {sz : Nat} {u : String} (h1 : ¬ sz > s.capacity)
    (h2 : hasFreeSpaceP s.msize sz s.capacity) : free s sz u = (s, true) := by
  simp [free, h1, h2]

theorem free_scan {s : Sys} {sz : Nat} {u : String} (h1 : ¬ sz > s.capacity)
    (h2 : ¬ hasFreeSpaceP s.msize sz s.capacity) :
    free s sz u =
      ({ s with order := (freeScanR s sz u).1.reverse,
                msize := (freeScanR s sz u).2.msize,
                diskFree := (freeScanR s sz u).2.dfree,
                index := (freeScanR s sz u).2.idx },
       decide (hasFreeSpaceP (freeScanR s sz u).2.msize sz s.capacity)) := by
  simp [free, h1, h2]

theorem freeDisk_enough {s : Sys} {sz : Nat} {u : String}
    (h : diskSafeP s.diskFree sz) : freeDiskCacheFiles s sz u = (s, true) := by
  simp [freeDiskCacheFiles, h]

theorem freeDisk_scan {s : Sys} {sz : Nat} {u : String}
    (h : ¬ diskSafeP s.diskFree sz) :
    freeDiskCacheFiles s sz u =
      ({ s with order := (diskScanR s sz u).1.reverse,
                msize := (diskScanR s sz u).2.msize,
                diskFree := (diskScanR s sz u).2.dfree,
                index := (diskScanR s sz u).2.idx },
       decide (diskSafeP (diskScanR s sz u).2.dfree sz)) := by
  simp [freeDiskCacheFiles, h]

theorem free_fields (s : Sys) (sz : Nat) (u : String) :
    (free s sz u).1.capacity = s.capacity ∧ (free s sz u).1.tree = s.tree ∧
    (free s sz u).1.mkdirOk = s.mkdirOk ∧ (free s sz u).1.allocOk = s.allocOk ∧
    (free s sz u).1.nextId = s.nextId := by
  by_cases h1 : sz > s.capacity
  · rw [free_big h1]; exact ⟨rfl, rfl, rfl, rfl, rfl⟩
  · by_cases h2 : hasFreeSpaceP s.msize sz s.capacity
    · rw [free_enough h1 h2]; exact ⟨rfl, rfl, rfl, rfl, rfl⟩
    · rw [free_scan h1 h2]; exact ⟨rfl, rfl, rfl, rfl, rfl⟩

theorem freeDisk_fields (s : Sys) (sz : Nat) (u : String) :
    (freeDiskCacheFiles s sz u).1.capacity = s.capacity ∧
    (freeDiskCacheFiles s sz u).1.tree = s.tree ∧
    (freeDiskCacheFiles s sz u).1.mkdirOk = s.mkdirOk ∧
    (freeDiskCacheFiles s sz u).1.allocOk = s.allocOk ∧
    (freeDiskCacheFiles s sz u).1.nextId = s.nextId := by
  by_cases h : diskSafeP s.diskFree sz
  · rw [freeDisk_enough h]; exact ⟨rfl, rfl, rfl, rfl, rfl⟩
  · rw [freeDisk_scan h]; exact ⟨rfl, rfl, rfl, rfl, rfl⟩

theorem free_order_sublist (s : Sys) (sz : Nat) (u : String) :
    List.Sublist (free s sz u).1.order s.order := by
  by_cases h1 : sz > s.capacity
  · rw [free_big h1]
  · by_cases h2 : hasFreeSpaceP s.msize sz s.capacity
    · rw [free_enough h1 h2]
    · rw [free_scan h1 h2]
      have hs := (evictScan_sublist (memStop sz s.capacity) u s.order.reverse
        ⟨s.msize, s.diskFree, s.index⟩).reverse
      rw [List.reverse_reverse] at hs
      exact hs

theorem freeDisk_order_sublist (s : Sys) (sz : Nat) (u : String) :
    List.Sublist (freeDiskCacheFiles s sz u).1.order s.order := by
  by_cases h : diskSafeP s.diskFree sz
  · rw [freeDisk_enough h]
  · rw [freeDisk_scan h]
    have hs := (evictScan_sublist (diskStop sz) u s.order.reverse
      ⟨s.msize, s.diskFree, s.index⟩).reverse
    rw [List.reverse_reverse] at hs
    exact hs

theorem free_skip_mem {s : Sys} {sz : Nat} {u : String} {e : Entry} {f : File}
    (he : e ∈ s.order) (hf : e.file = some f)
    (hcond : e.key = u ∨ f.isOpen = true) : e ∈ (free s sz u).1.order := by
  by_cases h1 : sz > s.capacity
  · rw [free_big h1]; exact he
  · by_cases h2 : hasFreeSpaceP s.msize sz s.capacity
    · rw [free_enough h1 h2]; exact he
    · rw [free_scan h1 h2]
      rw [List.mem_reverse]
      exact evictScan_skip_mem _ u s.order.reverse _ e f
        (List.mem_reverse.mpr he) hf hcond

theorem freeDisk_skip_mem {s : Sys} {sz : Nat} {u : String} {e : Entry} {f : File}
    (he : e ∈ s.order) (hf : e.file = some f)
    (hcond : e.key = u ∨ f.isOpen = true) :
    e ∈ (freeDiskCacheFiles s sz u).1.order := by
  by_cases h : diskSafeP s.diskFree sz
  · rw [freeDisk_enough h]; exact he
  · rw [freeDisk_scan h]
    rw [List.mem_reverse]
    exact evictScan_skip_mem _ u s.order.reverse _ e f
      (List.mem_reverse.mpr he) hf hcond

theorem free_WF {s : Sys} (sz : Nat) (u : String) (h : WF s) :
    WF (free s sz u).1 := by
  by_cases h1 : sz > s.capacity
  · rw [free_big h1]; exact h
  · by_cases h2 : hasFreeSpaceP s.msize sz s.capacity
    · rw [free_enough h1 h2]; exact h
    · rw [free_scan h1 h2]
      obtain ⟨hc, hfresh⟩ := h
      constructor
      · have hrev : WFc s.order.reverse s.index :=
          WFc_perm (List.reverse_perm s.order).symm hc
        have hscan := evictScan_WFc (memStop sz s.capacity) u s.order.reverse []
          ⟨s.msize, s.diskFree, s.index⟩ (by simpa using hrev)
        simp only [List.nil_append] at hscan
        exact WFc_perm (List.reverse_perm _).symm hscan
      · intro e he
        simp only at he
        have hsub := (evictScan_sublist (memStop sz s.capacity) u s.order.reverse
          ⟨s.msize, s.diskFree, s.index⟩).subset (List.mem_reverse.mp he)
        exact hfresh e (List.mem_reverse.mp hsub)

theorem freeDisk_WF {s : Sys} (sz : Nat) (u : String) (h : WF s) :
    WF (freeDiskCacheFiles s sz u).1 := by
  by_cases hd : diskSafeP s.diskFree sz
  · rw [freeDisk_enough hd]; exact h
  · rw [freeDisk_scan hd]
    obtain ⟨hc, hfresh⟩ := h
    constructor
    · have hrev : WFc s.order.reverse s.index :=
        WFc_perm (List.reverse_perm s.order).symm hc
      have hscan := evictScan_WFc (diskStop sz) u s.order.reverse []
        ⟨s.msize, s.diskFree, s.index⟩ (by simpa using hrev)
      simp only [List.nil_append] at hscan
      exact WFc_perm (List.reverse_perm _).symm hscan
    · intro e he
      simp only at he
      have hsub := (evictScan_sublist (diskStop sz) u s.order.reverse
        ⟨s.msize, s.diskFree, s.index⟩).subset (List.mem_reverse.mp he)
      exact hfresh e (List.mem_reverse.mp hsub)

theorem lookupIdx_some {s : Sys} {fid : String} {i : Nat}
    (h : lookupIdx s fid = some i) : (fid, i) ∈ s.index := by
  unfold lookupIdx at h
  cases hf : s.index.find? (fun p => p.1 == fid) with
  | none => rw [hf] at h; cases h
  | some p =>
    rw [hf, Option.map_some'] at h
    have hm := List.mem_of_find?_eq_some hf
    have hk := List.find?_some hf
    rw [beq_iff_eq] at hk
    have hi : p.2 = i := by injection h
    obtain ⟨p1, p2⟩ := p
    simp only at hk hi
    rw [hk, hi] at hm
    exact hm

theorem lookupIdx_none {s : Sys} {fid : String}
    (h : lookupIdx s fid = none) : ∀ p ∈ s.index, p.1 ≠ fid := by
  unfold lookupIdx at h
  cases hf : s.index.find? (fun p => p.1 == fid) with
  | some p => rw [hf] at h; cases h
  | none =>
    intro p hp
    have := List.find?_eq_none.mp hf p hp
    simpa [beq_iff_eq] using this

theorem lookup_none_iff_hasKey_false {s : Sys} {fid : String} :
    lookupIdx s fid = none ↔ hasKey s.index fid = false := by
  unfold lookupIdx hasKey
  cases s.index.find? (fun p => p.1 == fid) <;> simp

theorem extract_of_mem_nid {l : List Entry} {i : Nat} {e : Entry}
    (hn : (l.map Entry.nid).Nodup) (he : e ∈ l) (hi : e.nid = i) :
    ∃ rest, extractNid l i = some (e, rest) := by
  cases hx : extractNid l i with
  | none => exact absurd hi (extractNid_none hx e he)
  | some pr =>
    obtain ⟨e', r⟩ := pr
    obtain ⟨hnid, hperm⟩ := extractNid_spec hx
    have he' : e' ∈ l := hperm.mem_iff.mpr (List.mem_cons_self e' r)
    have : e' = e := nodupMap_inj hn he' he (by rw [hnid, hi])
    subst this
    exact ⟨r, rfl⟩

theorem WF_entry_of_lookup {s : Sys} {fid : String} {i : Nat}
    (hwf : WF s) (h : lookupIdx s fid = some i) :
    ∃ e rest, extractNid s.order i = some (e, rest) ∧ e.key = fid ∧
      e.nid = i ∧ e ∈ s.order := by
  obtain ⟨⟨_, hnid, hsound, _⟩, _⟩ := hwf
  obtain ⟨e, he, hni, hki⟩ := hsound (fid, i) (lookupIdx_some h)
  obtain ⟨rest, hx⟩ := extract_of_mem_nid hnid he hni
  exact ⟨e, rest, hx, hki, hni, he⟩

theorem touch_eq {s : Sys} {i : Nat} {e : Entry} {rest : List Entry}
    (h : extractNid s.order i = some (e, rest)) :
    touch s i = { s with order := e :: rest } := by
  simp [touch, h]

theorem findNid_cons_self {e : Entry} {l : List Entry} {i : Nat}
    (h : e.nid = i) : findNid (e :: l) i = some e := by
  simp [findNid, List.find?_cons, h]

theorem findNid_modify {l : List Entry} {i : Nat} {g : File → File} :
    findNid (l.map (fun e =>
      if e.nid == i then { e with file := e.file.map g } else e)) i =
    (findNid l i).map (fun e => { e with file := e.file.map g }) := by
  induction l with
  | nil => rfl
  | cons a t ih =>
    by_cases ha : a.nid = i
    · have hb : (a.nid == i) = true := beq_iff_eq.mpr ha
      simp only [List.map_cons, hb, eq_self_iff_true, if_true]
      rw [findNid_cons_self (show Entry.nid { a with file := a.file.map g } = i from ha),
          findNid_cons_self ha, Option.map_some']
    · have hb : (a.nid == i) = false := by simp [ha]
      simp only [List.map_cons, hb, Bool.false_eq_true, if_false]
      simp only [findNid, List.find?_cons, hb] at ih ⊢
      exact ih

theorem modifyEntryFile_fields (s : Sys) (i : Nat) (g : File → File) :
    (modifyEntryFile s i g).msize = s.msize ∧
    (modifyEntryFile s i g).index = s.index ∧
    (modifyEntryFile s i g).tree = s.tree ∧
    (modifyEntryFile s i g).capacity = s.capacity ∧
    (modifyEntryFile s i g).nextId = s.nextId ∧
    (modifyEntryFile s i g).diskFree = s.diskFree ∧
    (modifyEntryFile s i g).mkdirOk = s.mkdirOk ∧
    (modifyEntryFile s i g).allocOk = s.allocOk :=
  ⟨rfl, rfl, rfl, rfl, rfl, rfl, rfl, rfl⟩

theorem fileAtNid_modify {s : Sys} {i : Nat} {g : File → File} :
    fileAtNid (modifyEntryFile s i g) i = (fileAtNid s i).map g := by
  unfold fileAtNid modifyEntryFile
  rw [findNid_modify]
  cases findNid s.order i with
  | none => rfl
  | some e =>
    cases he : e.file <;> simp [he]

theorem finishPrepare_file {s : Sys} (fid : String) (avail : Bool)
    (hwf : WF s) (hnn : NoNull s) :
    ∃ i f, (finishPrepare s fid avail).2 = some i ∧
      fileAtNid (finishPrepare s fid avail).1 i = some f ∧
      f.useDiskFile = !avail := by
  cases hl : lookupIdx s fid with
  | some i =>
    obtain ⟨e, rest, hx, hkey, hni, he⟩ := WF_entry_of_lookup hwf hl
    cases hef : e.file with
    | none => exact absurd hef (hnn e he)
    | some f0 =>
      refine ⟨i, { f0 with useDiskFile := !avail }, ?_, ?_, rfl⟩
      · simp [finishPrepare, hl]
      · have : finishPrepare s fid avail =
            (modifyEntryFile (touch s i) i
              (fun f => { f with useDiskFile := !avail }), some i) := by
          simp [finishPrepare, hl]
        rw [this]
        rw [fileAtNid_modify]
        rw [touch_eq hx]
        unfold fileAtNid
        rw [findNid_cons_self hni]
        simp [hef]
  | none =>
    have hk := lookup_none_iff_hasKey_false.mp hl
    refine ⟨s.nextId, { emptyFile fid with useDiskFile := !avail }, ?_, ?_, rfl⟩
    · simp [finishPrepare, hl, unguardedNewEmptyFile, hk]
    · have : finishPrepare s fid avail =
          (modifyEntryFile
            { s with order := (⟨fid, some (emptyFile fid), s.nextId⟩ : Entry) :: s.order,
                     nextId := s.nextId + 1,
                     index := (fid, s.nextId) :: s.index } s.nextId
            (fun f => { f with useDiskFile := !avail }), some s.nextId) := by
        simp [finishPrepare, hl, unguardedNewEmptyFile, hk]
      rw [this, fileAtNid_modify]
      unfold fileAtNid
      rw [findNid_cons_self rfl]
      rfl

theorem hasKey_true_of_lookup_some {s : Sys} {fid : String} {i : Nat}
    (h : lookupIdx s fid = some i) : hasKey s.index fid = true := by
  unfold lookupIdx at h
  unfold hasKey
  cases hf : s.index.find? (fun p => p.1 == fid) with
  | none => rw [hf] at h; cases h
  | some p => rfl

theorem touch_fields (s : Sys) (i : Nat) :
    (touch s i).tree = s.tree ∧ (touch s i).msize = s.msize ∧
    (touch s i).index = s.index ∧ (touch s i).nextId = s.nextId ∧
    (touch s i).capacity = s.capacity ∧ (touch s i).diskFree = s.diskFree ∧
    (touch s i).mkdirOk = s.mkdirOk ∧ (touch s i).allocOk = s.allocOk := by
  cases hx : extractNid s.order i with
  | none => simp [touch, hx]
  | some pr =>
    obtain ⟨e, rest⟩ := pr
    simp [touch, hx]

theorem unguardedNew_fields (s : Sys) (fid : String) :
    (unguardedNewEmptyFile s fid).1.tree = s.tree ∧
    (unguardedNewEmptyFile s fid).1.msize = s.msize ∧
    (unguardedNewEmptyFile s fid).1.capacity = s.capacity ∧
    (unguardedNewEmptyFile s fid).1.diskFree = s.diskFree ∧
    (unguardedNewEmptyFile s fid).1.mkdirOk = s.mkdirOk ∧
    (unguardedNewEmptyFile s fid).1.allocOk = s.allocOk := by
  cases hk : hasKey s.index fid <;> simp [unguardedNewEmptyFile, hk]

theorem finishPrepare_fields (s : Sys) (fid : String) (avail : Bool) :
    (finishPrepare s fid avail).1.tree = s.tree ∧
    (finishPrepare s fid avail).1.msize = s.msize ∧
    (finishPrepare s fid avail).1.capacity = s.capacity ∧
    (finishPrepare s fid avail).1.diskFree = s.diskFree ∧
    (finishPrepare s fid avail).1.mkdirOk = s.mkdirOk ∧
    (finishPrepare s fid avail).1.allocOk = s.allocOk := by
  cases hl : lookupIdx s fid with
  | some i =>
    have hfp : finishPrepare s fid avail =
        (modifyEntryFile (touch s i) i
          (fun f => { f with useDiskFile := !avail }), some i) := by
      simp [finishPrepare, hl]
    rw [hfp]
    obtain ⟨ht, hm, _, _, hc, hd, hmk, hal⟩ := touch_fields s i
    exact ⟨ht, hm, hc, hd, hmk, hal⟩
  | none =>
    cases hk : hasKey s.index fid with
    | true =>
      exact absurd (lookup_none_iff_hasKey_false.mp hl) (by rw [hk]; intro h; cases h)
    | false =>
      have hfp : finishPrepare s fid avail =
          (modifyEntryFile
            { s with order := (⟨fid, some (emptyFile fid), s.nextId⟩ : Entry) :: s.order,
                     nextId := s.nextId + 1,
                     index := (fid, s.nextId) :: s.index } s.nextId
            (fun f => { f with useDiskFile := !avail }), some s.nextId) := by
        simp [finishPrepare, hl, unguardedNewEmptyFile, hk]
      rw [hfp]
      exact ⟨rfl, rfl, rfl, rfl, rfl, rfl⟩

theorem prepareWrite_fields (s : Sys) (fid : String) (len : Nat) :
    (prepareWrite s fid len).1.tree = s.tree ∧
    (prepareWrite s fid len).1.capacity = s.capacity ∧
    (prepareWrite s fid len).1.allocOk = s.allocOk := by
  by_cases h2 : hasFreeSpaceP s.msize len s.capacity
  · have hp : prepareWrite s fid len = finishPrepare s fid true := by
      simp [prepareWrite, h2]
    rw [hp]
    obtain ⟨ht, _, hc, _, _, hal⟩ := finishPrepare_fields s fid true
    exact ⟨ht, hc, hal⟩
  · cases hfr : (free s len fid).2 with
    | true =>
      have hp : prepareWrite s fid len =
          finishPrepare (free s len fid).1 fid true := by
        simp [prepareWrite, h2, hfr]
      rw [hp]
      obtain ⟨ht, _, hc, _, _, hal⟩ := finishPrepare_fields (free s len fid).1 fid true
      obtain ⟨hc0, ht0, _, hal0, _⟩ := free_fields s len fid
      exact ⟨ht.trans ht0, hc.trans hc0, hal.trans hal0⟩
    | false =>
      obtain ⟨hc0, ht0, _, hal0, _⟩ := free_fields s len fid
      cases hmk : (free s len fid).1.mkdirOk with
      | false =>
        have hp : prepareWrite s fid len = ((free s len fid).1, none) := by
          simp [prepareWrite, h2, hfr, hmk]
        rw [hp]
        exact ⟨ht0, hc0, hal0⟩
      | true =>
        by_cases hds : diskSafeP (free s len fid).1.diskFree len
        · have hp : prepareWrite s fid len =
              finishPrepare (free s len fid).1 fid false := by
            simp [prepareWrite, h2, hfr, hmk, hds]
          rw [hp]
          obtain ⟨ht, _, hc, _, _, hal⟩ :=
            finishPrepare_fields (free s len fid).1 fid false
          exact ⟨ht.trans ht0, hc.trans hc0, hal.trans hal0⟩
        · obtain ⟨hc1, ht1, _, hal1, _⟩ := freeDisk_fields (free s len fid).1 len fid
          cases hrd : (freeDiskCacheFiles (free s len fid).1 len fid).2 with
          | false =>
            have hp : prepareWrite s fid len =
                ((freeDiskCacheFiles (free s len fid).1 len fid).1, none) := by
              simp [prepareWrite, h2, hfr, hmk, hds, hrd]
            rw [hp]
            exact ⟨ht1.trans ht0, hc1.trans hc0, hal1.trans hal0⟩
          | true =>
            have hp : prepareWrite s fid len =
                finishPrepare (freeDiskCacheFiles (free s len fid).1 len fid).1
                  fid false := by
              simp [prepareWrite, h2, hfr, hmk, hds, hrd]
            rw [hp]
            obtain ⟨ht, _, hc, _, _, hal⟩ :=
              finishPrepare_fields
                (freeDiskCacheFiles (free s len fid).1 len fid).1 fid false
            exact ⟨(ht.trans ht1).trans ht0, (hc.trans hc1).trans hc0,
                   (hal.trans hal1).trans hal0⟩

theorem free_NoNull {s : Sys} {sz : Nat} {u : String} (h : NoNull s) :
    NoNull (free s sz u).1 :=
  fun e he => h e ((free_order_sublist s sz u).subset he)

theorem freeDisk_NoNull {s : Sys} {sz : Nat} {u : String} (h : NoNull s) :
    NoNull (freeDiskCacheFiles s sz u).1 :=
  fun e he => h e ((freeDisk_order_sublist s sz u).subset he)

theorem find?_eraseKey {idx : List (String × Nat)} {k fid : String}
    (hne : fid ≠ k) :
    (eraseKey idx k).find? (fun p => p.1 == fid) =
      idx.find? (fun p => p.1 == fid) := by
  induction idx with
  | nil => rfl
  | cons p t ih =>
    by_cases hk : p.1 = k
    · have h1 : (!(p.1 == k)) = false := by simp [hk]
      have h2 : (p.1 == fid) = false := by
        rw [hk]
        simp [Ne.symm hne]
      simp only [eraseKey, List.filter_cons, h1, List.find?_cons, h2]
      exact ih
    · have h1 : (!(p.1 == k)) = true := by simp [hk]
      simp only [eraseKey, List.filter_cons, h1, if_true, List.find?_cons]
      cases hp : (p.1 == fid) with
      | true => rfl
      | false => simpa [eraseKey] using ih

theorem find?_eraseKey_self {idx : List (String × Nat)} {k : String} :
    (eraseKey idx k).find? (fun p => p.1 == k) = none := by
  refine List.find?_eq_none.mpr ?_
  intro p hp
  have hne := (mem_eraseKey.mp hp).2
  simp [hne]

theorem hasKey_eraseKey_self {idx : List (String × Nat)} {k : String} :
    hasKey (eraseKey idx k) k = false := by
  unfold hasKey
  rw [find?_eraseKey_self]
  rfl

theorem map_mkey_id {l : List Entry} {i : Nat} (k : String)
    (h : ∀ e ∈ l, e.nid ≠ i) :
    l.map (fun e => if e.nid == i then { e with key := k } else e) = l := by
  induction l with
  | nil => rfl
  | cons a t ih =>
    have ha : (a.nid == i) = false := by
      simp [h a (List.mem_cons_self a t)]
    rw [List.map_cons, ha]
    simp only [Bool.false_eq_true, if_false]
    rw [ih (fun e he => h e (List.mem_cons_of_mem a he))]

theorem extract_map_mkey {l : List Entry} {i : Nat} {k : String} {e : Entry}
    {rest : List Entry} (hn : (l.map Entry.nid).Nodup)
    (hx : extractNid l i = some (e, rest)) :
    extractNid (l.map (fun e => if e.nid == i then { e with key := k } else e)) i =
      some ({ e with key := k }, rest) := by
  induction l generalizing rest with
  | nil => simp [extractNid] at hx
  | cons a t ih =>
    rw [List.map_cons, List.nodup_cons] at hn
    by_cases ha : a.nid = i
    · simp only [extractNid, if_pos ha, Option.some.injEq, Prod.mk.injEq] at hx
      obtain ⟨rfl, rfl⟩ := hx
      have hbeq : (a.nid == i) = true := beq_iff_eq.mpr ha
      have htid : t.map (fun e => if e.nid == i then { e with key := k } else e) = t := by
        refine map_mkey_id k ?_
        intro e he hei
        rw [← ha] at hei
        exact hn.1 (hei ▸ List.mem_map_of_mem Entry.nid he)
      rw [List.map_cons, hbeq]
      simp only [eq_self_iff_true, if_true]
      rw [htid]
      simp [extractNid, ha]
    · simp only [extractNid, if_neg ha] at hx
      cases hrec : extractNid t i with
      | none => rw [hrec] at hx; cases hx
      | some pr =>
        obtain ⟨e', r'⟩ := pr
        rw [hrec, Option.some.injEq, Prod.mk.injEq] at hx
        obtain ⟨rfl, rfl⟩ := hx
        have hbeq : (a.nid == i) = false := by simp [ha]
        rw [List.map_cons, hbeq]
        simp only [Bool.false_eq_true, if_false]
        have := ih hn.2 hrec
        simp only [extractNid, if_neg ha, this]

theorem unguardedEraseNid_index (s : Sys) (k : String) (j : Nat) :
    (unguardedEraseNid s k j).index = eraseKey s.index k := by
  cases hx : extractNid s.order j with
  | none => simp [unguardedEraseNid, hx]
  | some pr =>
    obtain ⟨e, rest⟩ := pr
    cases he : e.file <;> simp [unguardedEraseNid, hx, he]

theorem unguardedEraseNid_order {s : Sys} {k : String} {j : Nat}
    {e : Entry} {rest : List Entry} (hx : extractNid s.order j = some (e, rest)) :
    (unguardedEraseNid s k j).order = rest := by
  cases he : e.file <;> simp [unguardedEraseNid, hx, he]

theorem rename_tail_spec (s1 : Sys) (a b : String) (i : Nat) (eA : Entry)
    (rest1 : List Entry) (fa : File) (hab : a ≠ b)
    (hl : lookupIdx s1 a = some i)
    (hx : extractNid s1.order i = some (eA, rest1))
    (hn : (s1.order.map Entry.nid).Nodup) (hfa : eA.file = some fa)
    (hkb : hasKey s1.index b = false) :
    hasFile (renameTail s1 a b) a = false ∧
    hasFile (renameTail s1 a b) b = true ∧
    fileAt (renameTail s1 a b) b = some { fa with fid := b } := by
  have hx2 : extractNid (modifyEntryKey s1 i b).order i =
      some ({ eA with key := b }, rest1) := extract_map_mkey hn hx
  have htouch : touch (modifyEntryKey s1 i b) i =
      { modifyEntryKey s1 i b with order := { eA with key := b } :: rest1 } :=
    touch_eq hx2
  have hres : renameTail s1 a b =
      { modifyEntryFile
          { modifyEntryKey s1 i b with order := { eA with key := b } :: rest1 } i
          (fun f => { f with fid := b })
        with index := eraseKey ((b, i) :: s1.index) a } := by
    have hkb4 : hasKey (modifyEntryFile
        { modifyEntryKey s1 i b with order := { eA with key := b } :: rest1 } i
        (fun f => { f with fid := b })).index b = false := hkb
    simp only [renameTail, hl]
    rw [htouch]
    rw [hkb4]
    simp [modifyEntryKey, modifyEntryFile]
  have hidxfin : eraseKey ((b, i) :: s1.index) a = (b, i) :: eraseKey s1.index a := by
    have hb : (!(b == a)) = true := by simp [Ne.symm hab]
    simp [eraseKey, List.filter_cons, hb]
  refine ⟨?_, ?_, ?_⟩
  · rw [hres]
    unfold hasFile lookupIdx
    simp only [hidxfin]
    rw [List.find?_cons]
    have hba : (b == a) = false := by simp [Ne.symm hab]
    rw [hba]
    rw [find?_eraseKey_self]
    rfl
  · rw [hres]
    unfold hasFile lookupIdx
    simp only [hidxfin]
    rw [List.find?_cons]
    have hbb : (b == b) = true := by simp
    rw [hbb]
    rfl
  · rw [hres]
    unfold fileAt lookupIdx
    simp only [hidxfin]
    rw [List.find?_cons]
    have hbb : (b == b) = true := by simp
    rw [hbb]
    simp only [Option.map_some']
    show fileAtNid _ i = _
    have hfan : fileAtNid
        (modifyEntryFile
          { modifyEntryKey s1 i b with order := { eA with key := b } :: rest1 } i
          (fun f => { f with fid := b })) i =
        (fileAtNid { modifyEntryKey s1 i b with
          order := { eA with key := b } :: rest1 } i).map
            (fun f => { f with fid := b }) := fileAtNid_modify
    have hx3 : fileAtNid { modifyEntryKey s1 i b with
        order := { eA with key := b } :: rest1 } i = some fa := by
      unfold fileAtNid
      have hni : Entry.nid { eA with key := b } = i := (extractNid_spec hx).1
      rw [findNid_cons_self hni]
      simp [hfa]
    show fileAtNid { modifyEntryFile
          { modifyEntryKey s1 i b with order := { eA with key := b } :: rest1 } i
          (fun f => { f with fid := b })
        with index := eraseKey ((b, i) :: s1.index) a } i = _
    have : fileAtNid { modifyEntryFile
          { modifyEntryKey s1 i b with order := { eA with key := b } :: rest1 } i
          (fun f => { f with fid := b })
        with index := eraseKey ((b, i) :: s1.index) a } i =
        fileAtNid (modifyEntryFile
          { modifyEntryKey s1 i b with order := { eA with key := b } :: rest1 } i
          (fun f => { f with fid := b })) i := rfl
    rw [this, hfan, hx3]
    rfl

theorem map_mfile_id {l : List Entry} {i : Nat} (g : File → File)
    (h : ∀ e ∈ l, e.nid ≠ i) :
    l.map (fun e => if e.nid == i then { e with file := e.file.map g } else e) = l := by
  induction l with
  | nil => rfl
  | cons a t ih =>
    have ha : (a.nid == i) = false := by
      simp [h a (List.mem_cons_self a t)]
    rw [List.map_cons, ha]
    simp only [Bool.false_eq_true, if_false]
    rw [ih (fun e he => h e (List.mem_cons_of_mem a he))]

theorem modifyEntryFile_WF {s : Sys} (i : Nat) (g : File → File)
    (h : WF s) : WF (modifyEntryFile s i g) := by
  obtain ⟨hc, hfresh⟩ := h
  constructor
  · exact WFc_map_entry hc _ (fun e => by by_cases he : e.nid = i <;> simp [he])
      (fun e => by by_cases he : e.nid = i <;> simp [he])
  · intro e' he'
    obtain ⟨e, he, rfl⟩ := List.mem_map.mp he'
    have : Entry.nid (if e.nid == i then { e with file := e.file.map g } else e) = e.nid := by
      by_cases hx : e.nid = i <;> simp [hx]
    rw [this]
    exact hfresh e he

theorem touch_WF {s : Sys} (i : Nat) (h : WF s) : WF (touch s i) := by
  cases hx : extractNid s.order i with
  | none => rw [touch, hx]; exact h
  | some pr =>
    obtain ⟨e, rest⟩ := pr
    rw [touch_eq hx]
    obtain ⟨hc, hfresh⟩ := h
    have hperm := (extractNid_spec hx).2
    exact ⟨WFc_perm hperm hc, fun e' he' => hfresh e' (hperm.mem_iff.mpr he')⟩

theorem unguardedNew_WF {s : Sys} {fid : String}
    (h : WF s) (hk : hasKey s.index fid = false) :
    WF (unguardedNewEmptyFile s fid).1 := by
  obtain ⟨hc, hfresh⟩ := h
  have hres : unguardedNewEmptyFile s fid =
      ({ s with order := (⟨fid, some (emptyFile fid), s.nextId⟩ : Entry) :: s.order,
                nextId := s.nextId + 1,
                index := (fid, s.nextId) :: s.index }, some s.nextId) := by
    simp [unguardedNewEmptyFile, hk]
  rw [hres]
  constructor
  · refine WFc_cons_new hc ?_ ?_
    · intro hmem
      obtain ⟨p, hp, hpk⟩ := List.mem_map.mp hmem
      have hnone : lookupIdx s fid = none := lookup_none_iff_hasKey_false.mpr hk
      exact lookupIdx_none hnone p hp hpk
    · intro e he hne
      exact absurd (hne ▸ hfresh e he) (lt_irrefl s.nextId)
  · intro e he
    rcases List.mem_cons.mp he with rfl | he'
    · exact Nat.lt_succ_self _
    · exact Nat.lt_succ_of_lt (hfresh e he')

theorem unguardedEraseNid_WF {s : Sys} {k : String} {j : Nat}
    (h : WF s) (hl : lookupIdx s k = some j) :
    WF (unguardedEraseNid s k j) := by
  obtain ⟨e, rest, hx, hkey, hnid, hmem⟩ := WF_entry_of_lookup h hl
  obtain ⟨hc, hfresh⟩ := h
  have hperm := (extractNid_spec hx).2
  have hordr := unguardedEraseNid_order (k := k) hx
  have hidx := unguardedEraseNid_index s k j
  constructor
  · have h1 : WFc (e :: rest) s.index := WFc_perm hperm hc
    have h2 : WFc rest (eraseKey s.index e.key) := WFc_erase_head h1
    rw [hkey] at h2
    have : WFc (unguardedEraseNid s k j).order (unguardedEraseNid s k j).index := by
      rw [hordr, hidx]
      exact h2
    exact this
  · intro e' he'
    rw [hordr] at he'
    have : e' ∈ s.order := hperm.mem_iff.mpr (List.mem_cons_of_mem e he')
    have hnext : (unguardedEraseNid s k j).nextId = s.nextId := by
      cases hxx : extractNid s.order j with
      | none => simp [unguardedEraseNid, hxx]
      | some pr =>
        obtain ⟨e2, r2⟩ := pr
        cases he2 : e2.file <;> simp [unguardedEraseNid, hxx, he2]
    rw [hnext]
    exact hfresh e' this

theorem hasKey_false_all {idx : List (String × Nat)} {k : String}
    (h : hasKey idx k = false) : ∀ p ∈ idx, p.1 ≠ k := by
  unfold hasKey at h
  cases hf : idx.find? (fun p => p.1 == k) with
  | some p => rw [hf] at h; cases h
  | none =>
    intro p hp
    have := List.find?_eq_none.mp hf p hp
    simpa [beq_iff_eq] using this

theorem treeUpd_WF {s : Sys} {fid : String} {off len : Nat} {opn : Bool}
    (h : WF s) : WF (treeUpd s fid off len opn) := by
  cases ht : s.tree with
  | none => rw [treeUpd, ht]; exact h
  | some t => rw [treeUpd, ht]; exact h

theorem finishPrepare_WF {s : Sys} (fid : String) (avail : Bool)
    (h : WF s) : WF (finishPrepare s fid avail).1 := by
  cases hl : lookupIdx s fid with
  | some i =>
    have hfp : finishPrepare s fid avail =
        (modifyEntryFile (touch s i) i
          (fun f => { f with useDiskFile := !avail }), some i) := by
      simp [finishPrepare, hl]
    rw [hfp]
    exact modifyEntryFile_WF _ _ (touch_WF i h)
  | none =>
    have hk := lookup_none_iff_hasKey_false.mp hl
    have hfp : finishPrepare s fid avail =
        (modifyEntryFile
          { s with order := (⟨fid, some (emptyFile fid), s.nextId⟩ : Entry) :: s.order,
                   nextId := s.nextId + 1,
                   index := (fid, s.nextId) :: s.index } s.nextId
          (fun f => { f with useDiskFile := !avail }), some s.nextId) := by
      simp [finishPrepare, hl, unguardedNewEmptyFile, hk]
    have hrecWF : WF { s with
        order := (⟨fid, some (emptyFile fid), s.nextId⟩ : Entry) :: s.order,
        nextId := s.nextId + 1,
        index := (fid, s.nextId) :: s.index } := by
      have hwfn := unguardedNew_WF h hk
      have hres : unguardedNewEmptyFile s fid =
          ({ s with order := (⟨fid, some (emptyFile fid), s.nextId⟩ : Entry) :: s.order,
                    nextId := s.nextId + 1,
                    index := (fid, s.nextId) :: s.index }, some s.nextId) := by
        simp [unguardedNewEmptyFile, hk]
      rw [hres] at hwfn
      exact hwfn
    rw [hfp]
    exact modifyEntryFile_WF _ _ hrecWF

theorem prepareWrite_WF {s : Sys} (fid : String) (len : Nat)
    (h : WF s) : WF (prepareWrite s fid len).1 := by
  by_cases h2 : hasFreeSpaceP s.msize len s.capacity
  · have hp : prepareWrite s fid len = finishPrepare s fid true := by
      simp [prepareWrite, h2]
    rw [hp]
    exact finishPrepare_WF fid true h
  · cases hfr : (free s len fid).2 with
    | true =>
      have hp : prepareWrite s fid len =
          finishPrepare (free s len fid).1 fid true := by
        simp [prepareWrite, h2, hfr]
      rw [hp]
      exact finishPrepare_WF fid true (free_WF len fid h)
    | false =>
      cases hmk : (free s len fid).1.mkdirOk with
      | false =>
        have hp : prepareWrite s fid len = ((free s len fid).1, none) := by
          simp [prepareWrite, h2, hfr, hmk]
        rw [hp]
        exact free_WF len fid h
      | true =>
        by_cases hds : diskSafeP (free s len fid).1.diskFree len
        · have hp : prepareWrite s fid len =
              finishPrepare (free s len fid).1 fid false := by
            simp [prepareWrite, h2, hfr, hmk, hds]
          rw [hp]
          exact finishPrepare_WF fid false (free_WF len fid h)
        · cases hrd : (freeDiskCacheFiles (free s len fid).1 len fid).2 with
          | false =>
            have hp : prepareWrite s fid len =
                ((freeDiskCacheFiles (free s len fid).1 len fid).1, none) := by
              simp [prepareWrite, h2, hfr, hmk, hds, hrd]
            rw [hp]
            exact freeDisk_WF len fid (free_WF len fid h)
          | true =>
            have hp : prepareWrite s fid len =
                finishPrepare (freeDiskCacheFiles (free s len fid).1 len fid).1
                  fid false := by
              simp [prepareWrite, h2, hfr, hmk, hds, hrd]
            rw [hp]
            exact finishPrepare_WF fid false
              (freeDisk_WF len fid (free_WF len fid h))

theorem writeCore_WF {s : Sys} (fid : String) (off : Nat) (data : List Nat)
    (opn : Bool) (h : WF s) : WF (writeCore s fid off data opn).1 := by
  have hpw := prepareWrite_WF fid data.length h
  cases hp : (prepareWrite s fid data.length).2 with
  | none =>
    have heq : writeCore s fid off data opn =
        ((prepareWrite s fid data.length).1, false) := by
      simp [writeCore, hp]
    rw [heq]
    exact hpw
  | some i =>
    cases hf : fileAtNid (prepareWrite s fid data.length).1 i with
    | none =>
      have heq : writeCore s fid off data opn =
          ((prepareWrite s fid data.length).1, false) := by
        simp [writeCore, hp, hf]
      rw [heq]
      exact hpw
    | some f =>
      cases hw : (fileWrite f off data opn
          (prepareWrite s fid data.length).1.allocOk).1 with
      | false =>
        have heq : writeCore s fid off data opn =
            (modifyEntryFile (prepareWrite s fid data.length).1 i
              (fun _ => (fileWrite f off data opn
                (prepareWrite s fid data.length).1.allocOk).2.1), false) := by
          simp [writeCore, hp, hf, hw]
        rw [heq]
        exact modifyEntryFile_WF _ _ hpw
      | true =>
        have heq : writeCore s fid off data opn =
            (treeUpd
              { modifyEntryFile (prepareWrite s fid data.length).1 i
                  (fun _ => (fileWrite f off data opn
                    (prepareWrite s fid data.length).1.allocOk).2.1) with
                msize := add64
                  (modifyEntryFile (prepareWrite s fid data.length).1 i
                    (fun _ => (fileWrite f off data opn
                      (prepareWrite s fid data.length).1.allocOk).2.1)).msize
                  (fileWrite f off data opn
                    (prepareWrite s fid data.length).1.allocOk).2.2.1 }
              fid off data.length opn, true) := by
          simp [writeCore, hp, hf, hw]
        rw [heq]
        exact treeUpd_WF (modifyEntryFile_WF _ _ hpw)

theorem touchOrCreate_WF {s : Sys} (fid : String) (h : WF s) :
    WF (touchOrCreate s fid) := by
  cases hl : lookupIdx s fid with
  | some i =>
    rw [touchOrCreate, hl]
    exact touch_WF i h
  | none =>
    rw [touchOrCreate, hl]
    exact unguardedNew_WF h (lookup_none_iff_hasKey_false.mp hl)

theorem cacheWrite_WF {s : Sys} (fid : String) (off : Nat) (data : List Nat)
    (opn : Bool) (h : WF s) : WF (cacheWrite s fid off data opn).1 := by
  by_cases hd : data.length = 0
  · have heq : cacheWrite s fid off data opn = (touchOrCreate s fid, true) := by
      simp [cacheWrite, hd]
    rw [heq]
    exact touchOrCreate_WF fid h
  · by_cases hf : fid = ""
    · have heq : cacheWrite s fid off data opn = (s, false) := by
        simp [cacheWrite, hd, hf]
      rw [heq]
      exact h
    · have heq : cacheWrite s fid off data opn = writeCore s fid off data opn := by
        simp [cacheWrite, hd, hf]
      rw [heq]
      exact writeCore_WF fid off data opn h

theorem cacheWriteStream_WF {s : Sys} (fid : String) (off len : Nat)
    (stream : List Nat) (opn : Bool) (h : WF s) :
    WF (cacheWriteStream s fid off len stream opn).1 := by
  by_cases hd : len = 0
  · have heq : cacheWriteStream s fid off len stream opn =
        (touchOrCreate s fid, true) := by
      simp [cacheWriteStream, hd]
    rw [heq]
    exact touchOrCreate_WF fid h
  · by_cases hf : fid = ""
    · have heq : cacheWriteStream s fid off len stream opn = (s, false) := by
        simp [cacheWriteStream, hd, hf]
      rw [heq]
      exact h
    · by_cases hls : len ≤ stream.length
      · have heq : cacheWriteStream s fid off len stream opn =
            writeCore s fid off (stream.take len) opn := by
          simp [cacheWriteStream, hd, hf, hls]
        rw [heq]
        exact writeCore_WF fid off (stream.take len) opn h
      · have heq : cacheWriteStream s fid off len stream opn = (s, false) := by
          simp [cacheWriteStream, hd, hf, hls]
        rw [heq]
        exact h

theorem resizeTail_WF {s0 : Sys} (fid : String) (n i : Nat) (h : WF s0) :
    WF (resizeTail s0 fid n i) := by
  unfold resizeTail
  cases hfat : fileAtNid s0 i with
  | none => exact h
  | some f =>
    by_cases heq : n = f.fsize
    · simp only [heq, if_true]
      exact h
    · have hs1 : WF (if f.fsize < n
          then (cacheWrite s0 fid f.fsize (List.replicate (n - f.fsize) 0) f.isOpen).1
          else modifyEntryFile s0 i (fun g => resizeToSmaller g n)) := by
        by_cases hlt : f.fsize < n
        · rw [if_pos hlt]
          exact cacheWrite_WF fid f.fsize _ f.isOpen h
        · rw [if_neg hlt]
          exact modifyEntryFile_WF _ _ h
      simp only [if_neg heq]
      revert hs1
      generalize (if f.fsize < n
          then (cacheWrite s0 fid f.fsize (List.replicate (n - f.fsize) 0) f.isOpen).1
          else modifyEntryFile s0 i (fun g => resizeToSmaller g n)) = s1x
      intro hs1
      split
      · split
        · exact hs1
        · exact hs1
      · exact hs1

theorem resize_WF {s : Sys} (fid : String) (n : Nat) (h : WF s) :
    WF (resize s fid n) := by
  unfold resize
  cases hl : lookupIdx s fid with
  | some i => exact resizeTail_WF fid n i h
  | none =>
    have hk := lookup_none_iff_hasKey_false.mp hl
    have hwfn := unguardedNew_WF h hk
    cases hu : unguardedNewEmptyFile s fid with
    | mk s0 io =>
      rw [hu] at hwfn
      cases io with
      | some i => exact resizeTail_WF fid n i hwfn
      | none => exact hwfn

theorem rename_tail_WF (s1 : Sys) (a b : String) (hab : a ≠ b)
    (hwf1 : WF s1) (hkb : hasKey s1.index b = false) :
    WF (renameTail s1 a b) := by
  cases hl : lookupIdx s1 a with
  | none =>
    have hres : renameTail s1 a b = s1 := by simp [renameTail, hl]
    rw [hres]
    exact hwf1
  | some i =>
    obtain ⟨eA, rest1, hx, hkey, hnid, hmem⟩ := WF_entry_of_lookup hwf1 hl
    subst hnid
    have hn := hwf1.1.2.1
    have hx2 : extractNid (modifyEntryKey s1 eA.nid b).order eA.nid =
        some ({ eA with key := b }, rest1) := extract_map_mkey hn hx
    have htouch := touch_eq hx2
    have hres : renameTail s1 a b =
        { modifyEntryFile
            { modifyEntryKey s1 eA.nid b with order := { eA with key := b } :: rest1 }
            eA.nid (fun f => { f with fid := b })
          with index := eraseKey ((b, eA.nid) :: s1.index) a } := by
      have hkb4 : hasKey (modifyEntryFile
          { modifyEntryKey s1 eA.nid b with order := { eA with key := b } :: rest1 }
          eA.nid (fun f => { f with fid := b })).index b = false := hkb
      simp only [renameTail, hl]
      rw [htouch]
      rw [hkb4]
      simp [modifyEntryKey, modifyEntryFile]
    rw [hres]
    have hperm := (extractNid_spec hx).2
    have hrestnid : ∀ e ∈ rest1, e.nid ≠ eA.nid := by
      have hnod := (hperm.map Entry.nid).nodup_iff.mp hn
      rw [List.map_cons, List.nodup_cons] at hnod
      intro e he hei
      exact hnod.1 (hei ▸ List.mem_map_of_mem Entry.nid he)
    have hord : (modifyEntryFile
        { modifyEntryKey s1 eA.nid b with order := { eA with key := b } :: rest1 }
        eA.nid (fun f => { f with fid := b })).order =
        (⟨b, eA.file.map (fun f => { f with fid := b }), eA.nid⟩ : Entry) :: rest1 := by
      unfold modifyEntryFile
      simp only [List.map_cons]
      have hb : (Entry.nid { eA with key := b } == eA.nid) = true := by simp
      rw [hb]
      simp only [if_true]
      rw [map_mfile_id _ hrestnid]
    have hidxfin : eraseKey ((b, eA.nid) :: s1.index) a =
        (b, eA.nid) :: eraseKey s1.index a := by
      have hb2 : (!((b, eA.nid).1 == a)) = true := by simp [Ne.symm hab]
      simp [eraseKey, List.filter_cons, hb2]
    have hcore : WFc
        ((⟨b, eA.file.map (fun f => { f with fid := b }), eA.nid⟩ : Entry) :: rest1)
        ((b, eA.nid) :: eraseKey s1.index a) := by
      have h1 : WFc (eA :: rest1) s1.index := WFc_perm hperm hwf1.1
      have h2 : WFc rest1 (eraseKey s1.index eA.key) := WFc_erase_head h1
      rw [hkey] at h2
      refine WFc_cons_new h2 ?_ hrestnid
      intro hmemb
      obtain ⟨p, hp, hpk⟩ := List.mem_map.mp hmemb
      exact hasKey_false_all hkb p (mem_eraseKey.mp hp).1 hpk
    constructor
    · show WFc ((modifyEntryFile
          { modifyEntryKey s1 eA.nid b with order := { eA with key := b } :: rest1 }
          eA.nid (fun f => { f with fid := b })).order)
          (eraseKey ((b, eA.nid) :: s1.index) a)
      rw [hord, hidxfin]
      exact hcore
    · intro e he
      have he' : e ∈ (⟨b, eA.file.map (fun f => { f with fid := b }), eA.nid⟩ : Entry)
          :: rest1 := by
        rw [← hord]
        exact he
      show e.nid < s1.nextId
      rcases List.mem_cons.mp he' with rfl | hr
      · exact hwf1.2 eA hmem
      · exact hwf1.2 e (hperm.mem_iff.mpr (List.mem_cons_of_mem eA hr))

theorem rename_WF {s : Sys} (a b : String) (h : WF s) : WF (rename s a b) := by
  by_cases hid : a = b
  · have hres : rename s a b = s := by simp [rename, hid]
    rw [hres]
    exact h
  · cases hlb : lookupIdx s b with
    | none =>
      have hres : rename s a b = renameTail s a b := by simp [rename, hid, hlb]
      rw [hres]
      exact rename_tail_WF s a b hid h (lookup_none_iff_hasKey_false.mp hlb)
    | some j =>
      have hres : rename s a b = renameTail (unguardedEraseNid s b j) a b := by
        simp [rename, hid, hlb]
      rw [hres]
      refine rename_tail_WF _ a b hid (unguardedEraseNid_WF h hlb) ?_
      rw [unguardedEraseNid_index]
      exact hasKey_eraseKey_self

theorem setFileOpen_WF {s : Sys} (fid : String) (opn : Bool) (h : WF s) :
    WF (setFileOpen s fid opn) := by
  cases hl : lookupIdx s fid with
  | some i =>
    have h1 := modifyEntryFile_WF i (fun f => { f with isOpen := opn }) h
    simp only [setFileOpen, hl]
    split
    · exact h1
    · exact h1
  | none =>
    simp only [setFileOpen, hl]
    split
    · exact h
    · exact h

theorem eraseOp_WF {s : Sys} (fid : String) (h : WF s) : WF (eraseOp s fid) := by
  cases hl : lookupIdx s fid with
  | some i =>
    simp only [eraseOp, hl]
    exact unguardedEraseNid_WF h hl
  | none =>
    simp only [eraseOp, hl]
    exact h

theorem findFile_WF {s : Sys} (fid : String) (h : WF s) :
    WF (findFile s fid).1 := by
  cases hl : lookupIdx s fid with
  | some i =>
    simp only [findFile, hl]
    exact touch_WF i h
  | none =>
    simp only [findFile, hl]
    exact h

theorem makeFile_fst (s : Sys) (fid : String) :
    (makeFile s fid).1 = (unguardedNewEmptyFile s fid).1 := by
  cases hu : (unguardedNewEmptyFile s fid).2 <;> simp [makeFile, hu]

theorem free_allskip_false {s : Sys} {sz : Nat} {u : String}
    (h2 : ¬ hasFreeSpaceP s.msize sz s.capacity)
    (hall : ∀ e ∈ s.order, ∃ f, e.file = some f ∧ (e.key = u ∨ f.isOpen = true)) :
    (free s sz u).2 = false ∧ (free s sz u).1.order = s.order ∧
    (free s sz u).1.msize = s.msize ∧ (free s sz u).1.diskFree = s.diskFree ∧
    (free s sz u).1.index = s.index := by
  by_cases h1 : sz > s.capacity
  · rw [free_big h1]; exact ⟨rfl, rfl, rfl, rfl, rfl⟩
  · rw [free_scan h1 h2]
    have hsc : freeScanR s sz u =
        (s.order.reverse, ⟨s.msize, s.diskFree, s.index⟩) := by
      unfold freeScanR
      exact evictScan_allskip _ u s.order.reverse _
        (fun e he => hall e (List.mem_reverse.mp he))
    rw [hsc]
    refine ⟨decide_eq_false h2, ?_, rfl, rfl, rfl⟩
    simp [List.reverse_reverse]

end Lemmas

section Samples

/-- A one-byte in-memory closed file, for concrete instantiations. -/
def wfileA : File :=
  { fid := "a", cells := [⟨0, 65, true⟩], fsize := 1,
    useDiskFile := false, isOpen := false }

/-- A one-byte in-memory open file, for concrete instantiations. -/
def wfileOpen : File :=
  { fid := "o", cells := [⟨0, 66, true⟩], fsize := 1,
    useDiskFile := false, isOpen := true }

/-- A small concrete cache state holding one open and one closed file. -/
def sampleSys : Sys :=
  { capacity := 4, msize := 2,
    order := [⟨"o", some wfileOpen, 1⟩, ⟨"a", some wfileA, 0⟩],
    index := [("o", 1), ("a", 0)], nextId := 2,
    diskFree := 20000000, mkdirOk := true, allocOk := true, tree := none }

/-- A one-byte in-memory closed file under fid b. -/
def wfileB : File :=
  { fid := "b", cells := [⟨0, 1, true⟩], fsize := 1,
    useDiskFile := false, isOpen := false }

/-- A two-byte in-memory open file under fid c. -/
def wfileC : File :=
  { fid := "c", cells := [⟨0, 1, true⟩, ⟨1, 1, true⟩], fsize := 2,
    useDiskFile := false, isOpen := true }

/-- A full cache (capacity 2, three cached bytes) whose disk has safe
space but whose disk page allocation fails: the preparation of a write
succeeds through the disk path after evicting fid b, and the delegated
File write then fails. -/
def sampleFail : Sys :=
  { capacity := 2, msize := 3,
    order := [⟨"c", some wfileC, 1⟩, ⟨"b", some wfileB, 0⟩],
    index := [("c", 1), ("b", 0)], nextId := 2,
    diskFree := 16777218, mkdirOk := true, allocOk := false, tree := none }

/-- The empty cache with capacity 100. -/
def startSys : Sys :=
  { capacity := 100, msize := 0, order := [], index := [], nextId := 0,
    diskFree := 0, mkdirOk := true, allocOk := true, tree := none }

end Samples

/-- C2: for every requested size and unfreeable id, `Cache::Free` scans
the LRU order from the back, keeps (skips) the unfreeable entry and every
open File, removes only evictable or null entries (never reordering the
survivors), removes null entries whenever the loop examines them (so none
survive when the target was never reached), and returns true exactly when
size plus the current size is at most the capacity at return.  The
overflow-freedom hypothesis states that the final `size_t` sum does not
wrap. -/
theorem c2_free_contract (s : Sys) (sz : Nat) (u : String)
    (hW : (free s sz u).1.msize + sz < wordMod) :
    ((free s sz u).2 = true ↔ sz + (free s sz u).1.msize ≤ s.capacity) ∧
    List.Sublist (free s sz u).1.order s.order ∧
    (∀ e ∈ s.order, ∀ f : File, e.file = some f →
        (e.key = u ∨ f.isOpen = true) → e ∈ (free s sz u).1.order) ∧
    (∀ e ∈ s.order, e ∉ (free s sz u).1.order → ∀ f : File, e.file = some f →
        e.key ≠ u ∧ f.isOpen = false) ∧
    ((free s sz u).2 = false → sz ≤ s.capacity →
        ∀ e ∈ (free s sz u).1.order, e.file ≠ none) := by
  have part3 : ∀ e ∈ s.order, ∀ f : File, e.file = some f →
      (e.key = u ∨ f.isOpen = true) → e ∈ (free s sz u).1.order :=
    fun e he f hf hc => free_skip_mem he hf hc
  refine ⟨?_, free_order_sublist s sz u, part3, ?_, ?_⟩
  · by_cases h1 : sz > s.capacity
    · rw [free_big h1]
      simp only [Bool.false_eq_true, false_iff]
      omega
    · by_cases h2 : hasFreeSpaceP s.msize sz s.capacity
      · rw [free_enough h1 h2]
        have hW' : s.msize + sz < wordMod := by
          rw [free_enough h1 h2] at hW; exact hW
        have h2' : s.msize + sz ≤ s.capacity := by
          have := h2
          unfold hasFreeSpaceP at this
          rw [add64_eq hW'] at this
          exact this
        refine ⟨fun _ => ?_, fun _ => rfl⟩
        show sz + s.msize ≤ s.capacity
        omega
      · rw [free_scan h1 h2]
        have hW' : (freeScanR s sz u).2.msize + sz < wordMod := by
          rw [free_scan h1 h2] at hW; exact hW
        constructor
        · intro h
          have hd := of_decide_eq_true h
          unfold hasFreeSpaceP at hd
          rw [add64_eq hW'] at hd
          show sz + (freeScanR s sz u).2.msize ≤ s.capacity
          omega
        · intro h
          have h' : sz + (freeScanR s sz u).2.msize ≤ s.capacity := h
          apply decide_eq_true
          show hasFreeSpaceP (freeScanR s sz u).2.msize sz s.capacity
          unfold hasFreeSpaceP
          rw [add64_eq hW']
          omega
  · intro e he hne f hf
    constructor
    · intro hk
      exact hne (part3 e he f hf (Or.inl hk))
    · cases hop : f.isOpen
      · rfl
      · exact absurd (part3 e he f hf (Or.inr hop)) hne
  · intro hfalse hle
    by_cases h1 : sz > s.capacity
    · omega
    · by_cases h2 : hasFreeSpaceP s.msize sz s.capacity
      · rw [free_enough h1 h2] at hfalse
        cases hfalse
      · rw [free_scan h1 h2] at hfalse ⊢
        simp only [decide_eq_false_iff_not] at hfalse
        intro e he
        rw [List.mem_reverse] at he
        refine evictScan_nonull (memStop sz s.capacity) u s.order.reverse
          ⟨s.msize, s.diskFree, s.index⟩ ?_ e he
        simp only [memStop, freeScanR] at hfalse ⊢
        exact decide_eq_false hfalse

/-- Witness for C2: the contract instantiated at a concrete cache. -/
theorem c2_free_contract_witness :
    (free sampleSys 1 "x").2 = true ↔
      1 + (free sampleSys 1 "x").1.msize ≤ sampleSys.capacity :=
  (c2_free_contract sampleSys 1 "x" (by decide)).1

/-- C3: neither eviction loop ever evicts an open File (an entry holding
an open File survives `Free` and `FreeDiskCacheFiles` untouched), and
when every entry is unfreeable or open while memory is exhausted, `Free`
fails and the preparation phase of the write marks the target File to use
the disk (given the scratch directory can be created and has safe
space). -/
theorem c3_open_never_evicted :
    (∀ (s : Sys) (sz : Nat) (u : String) (e : Entry) (f : File), e ∈ s.order →
        e.file = some f → f.isOpen = true → e ∈ (free s sz u).1.order) ∧
    (∀ (s : Sys) (sz : Nat) (u : String) (e : Entry) (f : File), e ∈ s.order →
        e.file = some f → f.isOpen = true →
        e ∈ (freeDiskCacheFiles s sz u).1.order) ∧
    (∀ (s : Sys) (fid : String) (len : Nat), WF s → NoNull s →
        (∀ e ∈ s.order, ∃ f, e.file = some f ∧ (e.key = fid ∨ f.isOpen = true)) →
        ¬ hasFreeSpaceP s.msize len s.capacity →
        s.mkdirOk = true → diskSafeP s.diskFree len →
        (free s len fid).2 = false ∧
        ∃ i f, (prepareWrite s fid len).2 = some i ∧
          fileAtNid (prepareWrite s fid len).1 i = some f ∧
          f.useDiskFile = true) := by
  refine ⟨fun s sz u e f he hf hop => free_skip_mem he hf (Or.inr hop),
          fun s sz u e f he hf hop => freeDisk_skip_mem he hf (Or.inr hop),
          ?_⟩
  intro s fid len hwf hnn hall h2 hmk hdisk
  obtain ⟨hfalse, _, _, hdf, _⟩ := free_allskip_false h2 hall
  refine ⟨hfalse, ?_⟩
  have hmk' : (free s len fid).1.mkdirOk = true := by
    rw [(free_fields s len fid).2.2.1]; exact hmk
  have hdisk' : diskSafeP (free s len fid).1.diskFree len := by
    rw [hdf]; exact hdisk
  have hprep : prepareWrite s fid len = finishPrepare (free s len fid).1 fid false := by
    simp [prepareWrite, h2, hfalse, hmk', hdisk']
  rw [hprep]
  obtain ⟨i, f, hsome, hfile, huse⟩ :=
    finishPrepare_file fid false (free_WF len fid hwf) (free_NoNull hnn)
  exact ⟨i, f, hsome, hfile, huse⟩

/-- Witness for C3: the open entry of the sample cache survives a free
call. -/
theorem c3_open_never_evicted_witness :
    (⟨"o", some wfileOpen, 1⟩ : Entry) ∈ (free sampleSys 3 "x").1.order :=
  c3_open_never_evicted.1 sampleSys 3 "x" ⟨"o", some wfileOpen, 1⟩ wfileOpen
    (by decide) rfl rfl

/-- C8: whenever `Cache::PrepareWrite` succeeds, the prepared File has
`useDiskFile = true` exactly when there was no free memory and the
in-memory `Free` attempt failed (so the successful preparation came
through the disk path); when memory was available or was freed,
`useDiskFile` is set to false. -/
theorem c8_usediskfile_iff (s : Sys) (fid : String) (len : Nat) (i : Nat)
    (hwf : WF s) (hnn : NoNull s)
    (hsome : (prepareWrite s fid len).2 = some i) :
    ∃ f, fileAtNid (prepareWrite s fid len).1 i = some f ∧
      (f.useDiskFile = true ↔
        (¬ hasFreeSpaceP s.msize len s.capacity ∧
         (free s len fid).2 = false)) := by
  by_cases h2 : hasFreeSpaceP s.msize len s.capacity
  · have hprep : prepareWrite s fid len = finishPrepare s fid true := by
      simp [prepareWrite, h2]
    rw [hprep] at hsome ⊢
    obtain ⟨i0, f, hs0, hf0, hu0⟩ := finishPrepare_file fid true hwf hnn
    rw [hs0] at hsome
    obtain rfl : i0 = i := by injection hsome
    refine ⟨f, hf0, ?_⟩
    constructor
    · intro hx
      rw [hu0] at hx
      cases hx
    · intro hx
      exact absurd h2 hx.1
  · cases hfr : (free s len fid).2 with
    | true =>
      have hprep : prepareWrite s fid len =
          finishPrepare (free s len fid).1 fid true := by
        simp [prepareWrite, h2, hfr]
      rw [hprep] at hsome ⊢
      obtain ⟨i0, f, hs0, hf0, hu0⟩ :=
        finishPrepare_file fid true (free_WF len fid hwf) (free_NoNull hnn)
      rw [hs0] at hsome
      obtain rfl : i0 = i := by injection hsome
      refine ⟨f, hf0, ?_⟩
      constructor
      · intro hx
        rw [hu0] at hx
        cases hx
      · intro hx
        cases hx.2
    | false =>
      cases hmk : (free s len fid).1.mkdirOk with
      | false =>
        have hprep : prepareWrite s fid len = ((free s len fid).1, none) := by
          simp [prepareWrite, h2, hfr, hmk]
        rw [hprep] at hsome
        cases hsome
      | true =>
        by_cases hds : diskSafeP (free s len fid).1.diskFree len
        · have hprep : prepareWrite s fid len =
              finishPrepare (free s len fid).1 fid false := by
            simp [prepareWrite, h2, hfr, hmk, hds]
          rw [hprep] at hsome ⊢
          obtain ⟨i0, f, hs0, hf0, hu0⟩ :=
            finishPrepare_file fid false (free_WF len fid hwf)
              (free_NoNull hnn)
          rw [hs0] at hsome
          obtain rfl : i0 = i := by injection hsome
          exact ⟨f, hf0, ⟨fun _ => ⟨h2, rfl⟩, fun _ => hu0⟩⟩
        · cases hrd : (freeDiskCacheFiles (free s len fid).1 len fid).2 with
          | false =>
            have hprep : prepareWrite s fid len =
                ((freeDiskCacheFiles (free s len fid).1 len fid).1, none) := by
              simp [prepareWrite, h2, hfr, hmk, hds, hrd]
            rw [hprep] at hsome
            cases hsome
          | true =>
            have hprep : prepareWrite s fid len =
                finishPrepare (freeDiskCacheFiles (free s len fid).1 len fid).1
                  fid false := by
              simp [prepareWrite, h2, hfr, hmk, hds, hrd]
            rw [hprep] at hsome ⊢
            obtain ⟨i0, f, hs0, hf0, hu0⟩ :=
              finishPrepare_file fid false
                (freeDisk_WF len fid (free_WF len fid hwf))
                (freeDisk_NoNull (free_NoNull hnn))
            rw [hs0] at hsome
            obtain rfl : i0 = i := by injection hsome
            exact ⟨f, hf0, ⟨fun _ => ⟨h2, rfl⟩, fun _ => hu0⟩⟩

/-- Witness for C8: preparing a write in the sample cache with free
memory leaves the target File memory-backed. -/
theorem c8_usediskfile_iff_witness :
    ∃ f, fileAtNid (prepareWrite sampleSys "a" 1).1 0 = some f ∧
      (f.useDiskFile = true ↔
        (¬ hasFreeSpaceP sampleSys.msize 1 sampleSys.capacity ∧
         (free sampleSys 1 "a").2 = false)) :=
  c8_usediskfile_iff sampleSys "a" 1 0 (by decide) (by decide) (by decide)

/-- C9: a zero-length write succeeds without touching any bytes; a cached
fid is moved to the most-recently-used position (front of the order
list), an absent fid gets a fresh empty File entry. -/
theorem c9_zero_length_write (s : Sys) (fid : String) (off : Nat) (opn : Bool) :
    (cacheWrite s fid off [] opn).2 = true ∧
    (∀ i e rest, lookupIdx s fid = some i →
      extractNid s.order i = some (e, rest) →
      (cacheWrite s fid off [] opn).1 = { s with order := e :: rest }) ∧
    (lookupIdx s fid = none →
      (cacheWrite s fid off [] opn).1 =
        { s with
          order := (⟨fid, some (emptyFile fid), s.nextId⟩ : Entry) :: s.order,
          index := (fid, s.nextId) :: s.index, nextId := s.nextId + 1 }) := by
  refine ⟨rfl, ?_, ?_⟩
  · intro i e rest hl hx
    show (touchOrCreate s fid) = _
    rw [touchOrCreate, hl]
    exact touch_eq hx
  · intro hl
    have hk := lookup_none_iff_hasKey_false.mp hl
    show (touchOrCreate s fid) = _
    rw [touchOrCreate, hl]
    simp [unguardedNewEmptyFile, hk]

/-- Witness for C9: the zero-length write on the sample cache touches the
entry of fid a to the front. -/
theorem c9_zero_length_write_witness :
    (cacheWrite sampleSys "a" 0 [] false).1 =
      { sampleSys with
        order := [⟨"a", some wfileA, 0⟩, ⟨"o", some wfileOpen, 1⟩] } :=
  (c9_zero_length_write sampleSys "a" 0 false).2.1 0 ⟨"a", some wfileA, 0⟩
    [⟨"o", some wfileOpen, 1⟩] (by decide) (by decide)

/-- C10: `Cache::GetFileSize` returns 0 for an fid that is not cached and
the logical file size of the cached File otherwise. -/
theorem c10_getfilesize (s : Sys) (fid : String) :
    (lookupIdx s fid = none → getFileSize s fid = 0) ∧
    (∀ i f, lookupIdx s fid = some i → fileAtNid s i = some f →
      getFileSize s fid = f.fsize) := by
  constructor
  · intro h
    simp [getFileSize, h]
  · intro i f hl hf
    simp [getFileSize, hl, hf]

/-- Witness for C10: both cases at the sample cache. -/
theorem c10_getfilesize_witness :
    getFileSize sampleSys "zz" = 0 ∧ getFileSize sampleSys "a" = wfileA.fsize :=
  ⟨(c10_getfilesize sampleSys "zz").1 (by decide),
   (c10_getfilesize sampleSys "a").2 0 wfileA (by decide) (by decide)⟩

/-- Counterexample for C4: `Cache::MakeFile` on an fid that is already
cached does not return the already-existing File; it returns a null
pointer (while a File for that fid does exist in the cache). -/
theorem c4_counterexample :
    (makeFile sampleSys "a").2 = none ∧ fileAt sampleSys "a" = some wfileA := by
  decide

/-- C4 as amended: `MakeFile` on an absent fid creates a fresh empty File,
registers it and returns it; on a present fid the `emplace` into the map
fails, a duplicate unindexed node is left at the front of the order list,
and a null pointer is returned. -/
theorem c4_makefile_amended (s : Sys) (fid : String) :
    (lookupIdx s fid = none →
      makeFile s fid =
        ({ s with
           order := (⟨fid, some (emptyFile fid), s.nextId⟩ : Entry) :: s.order,
           index := (fid, s.nextId) :: s.index, nextId := s.nextId + 1 },
         some (emptyFile fid))) ∧
    (∀ i, lookupIdx s fid = some i →
      makeFile s fid =
        ({ s with
           order := (⟨fid, some (emptyFile fid), s.nextId⟩ : Entry) :: s.order,
           nextId := s.nextId + 1 }, none)) := by
  constructor
  · intro hl
    have hk := lookup_none_iff_hasKey_false.mp hl
    simp [makeFile, unguardedNewEmptyFile, hk, fileAtNid, findNid, List.find?_cons]
  · intro i hl
    have hk := hasKey_true_of_lookup_some hl
    simp [makeFile, unguardedNewEmptyFile, hk]

/-- Witness for C4 (amended): both branches at the sample cache. -/
theorem c4_makefile_amended_witness :
    makeFile sampleSys "a" =
      ({ sampleSys with
         order := (⟨"a", some (emptyFile "a"), 2⟩ : Entry) :: sampleSys.order,
         nextId := 3 }, none) :=
  (c4_makefile_amended sampleSys "a").2 0 (by decide)

/-- Counterexample for C7: in `sampleFail` the preparation phase succeeds
(through the disk path, evicting fid b and decreasing the size counter
from 3 to 2) and the delegated File write then fails, yet the size
counter has changed across the call, contradicting the claim that a
failed write leaves the counter unchanged. -/
theorem c7_counterexample :
    (prepareWrite sampleFail "a" 2).2 = some 2 ∧
    (cacheWrite sampleFail "a" 0 [7, 7] false).2 = false ∧
    (cacheWrite sampleFail "a" 0 [7, 7] false).1.msize = 2 ∧
    sampleFail.msize = 3 := by
  decide

/-- C7 as amended: when a positive-length write with a valid fid returns
failure (whether the preparation failed or the delegated `File::Write`
failed), the size counter carries no write increment (it equals its value
at the end of the preparation phase, which may have decreased it by
evictions) and the directory tree, hence every recorded node size, is
unchanged; the counter increment and the node update happen only after
`File::Write` reports success. -/
theorem c7_write_failure_amended (s : Sys) (fid : String) (off : Nat)
    (data : List Nat) (opn : Bool) (h1 : data.length ≠ 0) (h2 : ¬ fid = "")
    (h3 : (cacheWrite s fid off data opn).2 = false) :
    (cacheWrite s fid off data opn).1.msize =
      (prepareWrite s fid data.length).1.msize ∧
    (cacheWrite s fid off data opn).1.tree = s.tree := by
  have hcw : cacheWrite s fid off data opn = writeCore s fid off data opn := by
    simp [cacheWrite, h1, h2]
  rw [hcw] at h3 ⊢
  have htree := (prepareWrite_fields s fid data.length).1
  cases hp : (prepareWrite s fid data.length).2 with
  | none =>
    have heq : writeCore s fid off data opn =
        ((prepareWrite s fid data.length).1, false) := by
      simp [writeCore, hp]
    rw [heq]
    exact ⟨rfl, htree⟩
  | some i =>
    cases hf : fileAtNid (prepareWrite s fid data.length).1 i with
    | none =>
      have heq : writeCore s fid off data opn =
          ((prepareWrite s fid data.length).1, false) := by
        simp [writeCore, hp, hf]
      rw [heq]
      exact ⟨rfl, htree⟩
    | some f =>
      cases hw : (fileWrite f off data opn
          (prepareWrite s fid data.length).1.allocOk).1 with
      | true =>
        have heq : (writeCore s fid off data opn).2 = true := by
          simp [writeCore, hp, hf, hw]
        rw [heq] at h3
        cases h3
      | false =>
        have heq : writeCore s fid off data opn =
            (modifyEntryFile (prepareWrite s fid data.length).1 i
              (fun _ => (fileWrite f off data opn
                (prepareWrite s fid data.length).1.allocOk).2.1), false) := by
          simp [writeCore, hp, hf, hw]
        rw [heq]
        obtain ⟨hm, _, ht, _⟩ := modifyEntryFile_fields
          (prepareWrite s fid data.length).1 i
          (fun _ => (fileWrite f off data opn
            (prepareWrite s fid data.length).1.allocOk).2.1)
        exact ⟨hm, ht.trans htree⟩

/-- Witness for C7 (amended): the failing write on `sampleFail` leaves the
counter at its post-preparation value and the tree unchanged. -/
theorem c7_write_failure_amended_witness :
    (cacheWrite sampleFail "a" 0 [7, 7] false).1.msize =
      (prepareWrite sampleFail "a" 2).1.msize ∧
    (cacheWrite sampleFail "a" 0 [7, 7] false).1.tree = sampleFail.tree :=
  c7_write_failure_amended sampleFail "a" 0 [7, 7] false (by decide)
    (by decide) (by decide)

/-- Counterexample for C5: the sample cache satisfies the index/order
agreement, and `MakeFile` on the already-present fid a destroys it (the
pushed duplicate node at the front of the order list has no matching
index entry), so not every operation preserves the agreement. -/
theorem c5_counterexample :
    WF sampleSys ∧ ¬ WF (makeFile sampleSys "a").1 := by
  decide

/-- C5 as amended: every Cache operation except `MakeFile` on an
already-present fid preserves the agreement between the index map and
the LRU order list (each indexed key points at exactly one live node
carrying that key back, every node is indexed, and node identities stay
unique); `MakeFile` on an absent fid also preserves it. -/
theorem c5_wf_preservation (s : Sys) (h : WF s) :
    (∀ fid, lookupIdx s fid = none → WF (makeFile s fid).1) ∧
    (∀ fid, WF (findFile s fid).1) ∧
    (∀ fid off data opn, WF (cacheWrite s fid off data opn).1) ∧
    (∀ fid off len stream opn, WF (cacheWriteStream s fid off len stream opn).1) ∧
    (∀ fid n, WF (resize s fid n)) ∧
    (∀ sz u, WF (free s sz u).1) ∧
    (∀ sz u, WF (freeDiskCacheFiles s sz u).1) ∧
    (∀ fid, WF (eraseOp s fid)) ∧
    (∀ a b, WF (rename s a b)) ∧
    (∀ fid opn, WF (setFileOpen s fid opn)) := by
  refine ⟨?_, fun fid => findFile_WF fid h,
          fun fid off data opn => cacheWrite_WF fid off data opn h,
          fun fid off len stream opn => cacheWriteStream_WF fid off len stream opn h,
          fun fid n => resize_WF fid n h,
          fun sz u => free_WF sz u h,
          fun sz u => freeDisk_WF sz u h,
          fun fid => eraseOp_WF fid h,
          fun a b => rename_WF a b h,
          fun fid opn => setFileOpen_WF fid opn h⟩
  intro fid hl
  rw [makeFile_fst]
  exact unguardedNew_WF h (lookup_none_iff_hasKey_false.mp hl)

/-- Witness for C5 (amended): preservation instantiated at the sample
cache for a rename and a write. -/
theorem c5_wf_preservation_witness :
    WF (rename sampleSys "a" "b") ∧
    WF (cacheWrite sampleSys "a" 0 [7] false).1 :=
  ⟨(c5_wf_preservation sampleSys (by decide)).2.2.2.2.2.2.2.2.1 "a" "b",
   (c5_wf_preservation sampleSys (by decide)).2.2.1 "a" 0 [7] false⟩

/-- C6: renaming a cached fid `a` to a distinct fid `b` first erases any
existing entry under `b`, re-keys the node of `a`, moves it to the front,
renames the underlying File and re-indexes it under `b`; afterwards `a`
is no longer in the cache, `b` is, and the File now indexed under `b` is
the prior File of `a` with only its fid changed (its bytes, placement and
logical size are untouched). -/
theorem c6_rename_contract (s : Sys) (a b : String) (fa : File)
    (hwf : WF s) (hab : a ≠ b) (hfa : fileAt s a = some fa) :
    hasFile (rename s a b) a = false ∧
    hasFile (rename s a b) b = true ∧
    fileAt (rename s a b) b = some { fa with fid := b } := by
  cases hla : lookupIdx s a with
  | none => simp [fileAt, hla] at hfa
  | some i =>
    simp only [fileAt, hla, fileAtNid] at hfa
    cases hfind : findNid s.order i with
    | none => rw [hfind] at hfa; cases hfa
    | some eA =>
      rw [hfind, Option.some_bind] at hfa
      obtain ⟨heAmem, heAnid⟩ := findNid_mem hfind
      have hn : (s.order.map Entry.nid).Nodup := hwf.1.2.1
      have heAkey : eA.key = a := by
        obtain ⟨e', he', hn', hk'⟩ := hwf.1.2.2.1 (a, i) (lookupIdx_some hla)
        have : e' = eA := nodupMap_inj hn he' heAmem (by rw [hn', heAnid])
        rw [← this, hk']
      cases hlb : lookupIdx s b with
      | none =>
        have hrw : rename s a b = renameTail s a b := by
          simp [rename, hab, hlb]
        obtain ⟨rest1, hx⟩ := extract_of_mem_nid hn heAmem heAnid
        rw [hrw]
        exact rename_tail_spec s a b i eA rest1 fa hab hla hx hn hfa
          (lookup_none_iff_hasKey_false.mp hlb)
      | some j =>
        have hrw : rename s a b = renameTail (unguardedEraseNid s b j) a b := by
          simp [rename, hab, hlb]
        obtain ⟨eB, heBmem, heBnid, heBkey⟩ :=
          hwf.1.2.2.1 (b, j) (lookupIdx_some hlb)
        obtain ⟨restB, hxB⟩ := extract_of_mem_nid hn heBmem heBnid
        have hij : i ≠ j := by
          intro h
          have : eA = eB := nodupMap_inj hn heAmem heBmem (by rw [heAnid, heBnid, h])
          rw [← heAkey, this, heBkey] at hab
          exact hab rfl
        have hperm := (extractNid_spec hxB).2
        have hordr := unguardedEraseNid_order (k := b) hxB
        have hidx1 := unguardedEraseNid_index s b j
        have heArest : eA ∈ restB := by
          have hmem := hperm.mem_iff.mp heAmem
          rcases List.mem_cons.mp hmem with heq | hmem'
          · exfalso
            exact hij (by rw [← heAnid, heq, heBnid])
          · exact hmem'
        have hn1 : (restB.map Entry.nid).Nodup := by
          have := (hperm.map Entry.nid).nodup_iff.mp hn
          rw [List.map_cons, List.nodup_cons] at this
          exact this.2
        have hl1 : lookupIdx (unguardedEraseNid s b j) a = some i := by
          unfold lookupIdx
          rw [hidx1, find?_eraseKey hab]
          exact hla
        have hkb1 : hasKey (unguardedEraseNid s b j).index b = false := by
          rw [hidx1]
          exact hasKey_eraseKey_self
        have hn1' : ((unguardedEraseNid s b j).order.map Entry.nid).Nodup := by
          rw [hordr]; exact hn1
        obtain ⟨rest1, hx1⟩ := extract_of_mem_nid hn1' (by rw [hordr]; exact heArest) heAnid
        rw [hrw]
        exact rename_tail_spec (unguardedEraseNid s b j) a b i eA rest1 fa hab
          hl1 hx1 hn1' hfa hkb1

/-- Witness for C6: renaming fid a to fid o in the sample cache (o being
present) moves the bytes of a under o. -/
theorem c6_rename_contract_witness :
    hasFile (rename sampleSys "a" "o") "a" = false ∧
    hasFile (rename sampleSys "a" "o") "o" = true ∧
    fileAt (rename sampleSys "a" "o") "o" = some { wfileA with fid := "o" } :=
  c6_rename_contract sampleSys "a" "o" wfileA (by decide) (by decide) (by decide)

/-- C1 is violated by the code: growing an empty file to one byte through
`Cache::Resize` leaves the size counter at 2 although the Files hold one
cached byte in total.  The hole write already added 1 to the counter
inside `Cache::Write`, and `Resize` then adds the cached-size change of
the file (again 1) on top, so the invariant that the counter equals the
sum of cached sizes is broken by the grow path. -/
theorem c1_resize_size_invariant_bug :
    startSys.msize = sumCachedSizes startSys ∧
    (resize startSys "a" 1).msize = 2 ∧
    sumCachedSizes (resize startSys "a" 1) = 1 ∧
    (resize startSys "a" 1).msize ≠ sumCachedSizes (resize startSys "a" 1) := by
  decide

end Qsfs
